import Mathlib

/-!
# N-Queens (revised) backtracking search — verification development

Shallow embedding of `src/algo/np-complete/queens-revised/queens-revised.c`.

* `row_t` is `uint64_t` (`BOARD_SIZE_MAX == 64`): a row mask is a natural number, and the
  only operation that can leave the 64-bit range, the left shift, is reduced modulo `2^64`.
* A `row_t *` array is a function `Nat → Nat` from index to mask; a call that writes through
  the pointer returns the new array.  A `row_t **` array is a function `Nat → Nat → Nat`.
* The compile-time switch `QUEENS_REVISED` is the Boolean parameter `revised`.
* `for` loops with a fixed trip count are run by `forUp`.
-/

namespace Queens

/-! ## Machine-level helpers -/

/-- Line 28: `#define BOARD_SIZE_MAX 64`. -/
def BOARD_SIZE_MAX : Nat := 64

/-- Left shift on `row_t` (`uint64_t`): bits shifted past position 63 are dropped. -/
def shl64 (x k : Nat) : Nat := (x <<< k) % 2 ^ 64

/-- Right shift on `row_t`. -/
def shr64 (x k : Nat) : Nat := x >>> k

/-- Line 22: `#define min(x,y) (x < y ? x : y)`. -/
def cmin (x y : Nat) : Nat := if x < y then x else y

/-- Scan of the bits `k, k+1, ...` of `x`, at most `fuel` of them: one plus the index of the
first set bit found, `0` if none is found. -/
def ffsScan (x : Nat) : Nat → Nat → Nat
  | 0, _ => 0
  | fuel + 1, k => if x.testBit k then k + 1 else ffsScan x fuel (k + 1)

/-- The GCC builtin `__builtin_ffs (int x)`: one plus the index of the least significant set
bit of the 32-bit value `x`, or zero if `x` is zero. -/
def builtin_ffs (x : Nat) : Nat := ffsScan x 32 0

/-- Line 23: `#define findfirstset(x) (__builtin_ffs(x))`.  The argument is a `row_t`
(`uint64_t`) and the builtin takes an `int`, so the mask is first converted to 32 bits
(the low 32 bits are kept). -/
def findfirstset (x : Nat) : Nat := builtin_ffs (x % 2 ^ 32)

/-- Array store `a[i] = v`. -/
def store (a : Nat → Nat) (i v : Nat) : Nat → Nat := fun j => if j = i then v else a j

/-- A C loop `for (k = start; k < start + count; k++) body(k)` over a state `σ`. -/
def forUp {σ : Type} (body : Nat → σ → σ) : Nat → Nat → σ → σ
  | 0, _, s => s
  | count + 1, start, s => forUp body count (start + 1) (body start s)

/-! ## Helper functions of the program -/

/-- Lines 260-266: `copy(dest, src, n)`. -/
def copy (dest src : Nat → Nat) (n : Nat) : Nat → Nat :=
  forUp (fun i d => store d i (src i)) n 0 dest

/-- Lines 269-274: `zero(X, n)`. -/
def zero (X : Nat → Nat) (n : Nat) : Nat → Nat :=
  forUp (fun i d => store d i 0) n 0 X

/-- Lines 176-183: `is_legal(illegal, i, n, row_pos_bits)`. -/
def is_legal (illegal : Nat → Nat) (i _n row_pos_bits : Nat) : Bool :=
  let row := illegal i
  (row &&& row_pos_bits) == 0

/-- Lines 221-231: the walk of the collinearity pass for one pair `(i_prev, i_cur)`,
`for (i_rem = i_cur + row_diff; i_rem < n && illegal_pos != 0; i_rem += row_diff)`.
Within `set_illegal` the stride `row_diff` is positive, so the loop ends after at most `n`
iterations; `fuel` bounds the number of iterations. -/
def collinear_walk (n row_diff : Nat) (col_diff : Int) :
    Nat → Nat → Nat → (Nat → Nat) → (Nat → Nat)
  | 0, _, _, illegal => illegal
  | fuel + 1, i_rem, illegal_pos, illegal =>
    if i_rem < n ∧ illegal_pos ≠ 0 then
      let illegal_pos1 :=
        if col_diff > 0 then shr64 illegal_pos col_diff.toNat
        else shl64 illegal_pos (-col_diff).toNat
      collinear_walk n row_diff col_diff fuel (i_rem + row_diff) illegal_pos1
        (store illegal i_rem (illegal i_rem ||| illegal_pos1))
    else illegal

/-- Lines 213-232: body of the collinearity pass for one earlier row `i_prev`. -/
def collinear_step (board : Nat → Nat) (i_cur n new_pos_bits : Nat) (i_prev : Nat)
    (illegal : Nat → Nat) : Nat → Nat :=
  let board_i_prev : Int := findfirstset (board i_prev)
  let board_i_cur : Int := findfirstset (board i_cur)
  let row_diff := i_cur - i_prev
  let col_diff := board_i_prev - board_i_cur
  let illegal_pos := new_pos_bits
  collinear_walk n row_diff col_diff n (i_cur + row_diff) illegal_pos illegal

/-- Lines 188-236: `set_illegal(board, illegal, i_cur, n, new_pos_bits, new_pos)`; returns the
updated `illegal` array. -/
def set_illegal (revised : Bool) (board illegal : Nat → Nat) (i_cur n new_pos_bits new_pos : Nat) :
    Nat → Nat :=
  let left_steps := cmin (n - i_cur - 1) new_pos
  let illegal1 :=
    forUp (fun step ill => store ill (i_cur + step) (ill (i_cur + step) ||| shr64 new_pos_bits step))
      left_steps 1 illegal
  let right_steps := cmin (n - i_cur - 1) (n - new_pos - 1)
  let illegal2 :=
    forUp (fun step ill => store ill (i_cur + step) (ill (i_cur + step) ||| shl64 new_pos_bits step))
      right_steps 1 illegal1
  let illegal3 :=
    forUp (fun step ill => store ill (i_cur + step) (ill (i_cur + step) ||| new_pos_bits))
      (n - i_cur - 1) 1 illegal2
  if revised then
    forUp (fun i_prev ill => collinear_step board i_cur n new_pos_bits i_prev ill) i_cur 0 illegal3
  else illegal3

/-! ## The search -/

/-- The two `row_t **` arrays of `queens_revised`: one board snapshot and one illegal-mask
snapshot per search depth. -/
structure State where
  board : Nat → Nat → Nat
  illegal : Nat → Nat → Nat

/-- Lines 149-163: commit a queen at column `new_pos` of row `i`. -/
def place (revised : Bool) (n i new_pos : Nat) (s : State) : State :=
  let new_pos_bits := shl64 1 new_pos
  let b0 := if i > 0 then copy (s.board i) (s.board (i - 1)) n else zero (s.board i) n
  let l0 := if i > 0 then copy (s.illegal i) (s.illegal (i - 1)) n else zero (s.illegal i) n
  let b1 := store b0 i new_pos_bits
  let l1 := set_illegal revised b1 l0 i n new_pos_bits new_pos
  { board := fun d => if d = i then b1 else s.board d,
    illegal := fun d => if d = i then l1 else s.illegal d }

/-- Lines 144-171: the loop `for (new_pos = 0; new_pos < n; new_pos++)` of `queens_recurse` at
depth `i`, with `count` iterations left; `recurse` is the recursive call at depth `i + 1`.
The result is `none` when a recursive call does not return. -/
def try_columns (revised : Bool) (n i : Nat) (recurse : State → Option (Bool × State)) :
    Nat → Nat → State → Option (Bool × State)
  | 0, _, s => some (false, s)
  | count + 1, new_pos, s =>
    let new_pos_bits := shl64 1 new_pos
    if i = 0 ∨ is_legal (s.illegal (i - 1)) i n new_pos_bits = true then
      match recurse (place revised n i new_pos s) with
      | none => none
      | some (true, s1) => some (true, s1)
      | some (false, s1) => try_columns revised n i recurse count (new_pos + 1) s1
    else try_columns revised n i recurse count (new_pos + 1) s

/-- Lines 134-173: `queens_recurse(board, illegal, n, i)` with a bound `fuel` on the recursion
depth; `none` when the bound is reached. -/
def queens_recurse_fuel (revised : Bool) (n : Nat) : Nat → Nat → State → Option (Bool × State)
  | fuel, i, s =>
    if i = n then some (true, s)
    else
      match fuel with
      | 0 => none
      | fuel + 1 =>
        try_columns revised n i (queens_recurse_fuel revised n fuel (i + 1)) n 0 s

/-- Lines 134-173: `queens_recurse(board, illegal, n, i)`.  A call at depth `i ≤ n` nests at
most `n - i` further calls. -/
def queens_recurse (revised : Bool) (n i : Nat) (s : State) : Option (Bool × State) :=
  queens_recurse_fuel revised n (n - i) i s

/-- Lines 100-109: both arrays zeroed. -/
def zeroState : State := { board := fun _ _ => 0, illegal := fun _ _ => 0 }

/-- Observation of a search result: `none` if the call did not return, otherwise the return
value together with the row masks `board[n-1][0..n-1]`. -/
def observe (n : Nat) : Option (Bool × State) → Option (Bool × List Nat)
  | none => none
  | some (b, s) => some (b, (List.range n).map (fun r => s.board (n - 1) r))

/-! ## Output and the main program -/

/-- Lines 241-248: `print_bits(x, n)`; returns the characters written. -/
def print_bits (x n : Nat) : String :=
  (forUp (fun _ (st : Nat × String) =>
      (shr64 st.1 1, st.2.push (if st.1 &&& 1 ≠ 0 then 'o' else '.'))) n 0 (x, "")).2

/-- Lines 251-257: `print_bitarray(X, n)`; returns the characters written. -/
def print_bitarray (X : Nat → Nat) (n : Nat) : String :=
  forUp (fun i out => (out ++ print_bits (X i) n) ++ "\n") n 0 ""

/-- Lines 279-286: `print_result(X, n)`; returns the characters written. -/
def print_result (X : Nat → Nat) (n : Nat) : String :=
  let out1 := toString n ++ "\n"
  let out2 := forUp (fun i out => out ++ (toString (findfirstset (X i)) ++ " ")) n 0 out1
  out2 ++ "\n"

/-- How a call of `queens_revised` ends. -/
inductive Completion where
  | returned
  | aborted
  | diverged

/-- Effect of a call of `queens_revised`: the text written to standard output, how the call
ended, and whether `queens_recurse` was entered. -/
structure Effect where
  stdout : String
  completion : Completion
  searched : Bool

/-- Lines 95-131: `queens_revised(n)`.  A failed `assert` aborts the process; both printing
switches (`PRINT_RESULT_BOARD`, `PRINT_RESULT`) are on. -/
def queens_revised (revised : Bool) (n : Int) : Effect :=
  if ¬ (n > 0) then { stdout := "", completion := .aborted, searched := false }
  else if ¬ (n ≤ (BOARD_SIZE_MAX : Int)) then
    { stdout := "", completion := .aborted, searched := false }
  else
    match queens_recurse revised n.toNat 0 zeroState with
    | none => { stdout := "", completion := .diverged, searched := true }
    | some (success, s) =>
      let out1 := if success then print_bitarray (s.board (n.toNat - 1)) n.toNat else ""
      let out2 :=
        if success then print_result (s.board (n.toNat - 1)) n.toNat else "no result\n"
      { stdout := out1 ++ out2, completion := .returned, searched := true }

/-- How the process ends. -/
inductive Status where
  | exited (code : Nat)
  | aborted
  | diverged

/-- A run of the program: standard output, how it ended, whether a search was started. -/
structure Run where
  stdout : String
  status : Status
  searched : Bool

/-- Lines 61-74: `main(argc, argv)`.  `argv` lists the arguments, program name included, so
`argc` is its length; the C library function `atoi` is a parameter. -/
def main (revised : Bool) (atoi : String → Int) (argv : List String) : Run :=
  let argc := argv.length
  if argc = 2 then
    let n := atoi (argv.getD 1 "")
    let e := queens_revised revised n
    match e.completion with
    | .returned => { stdout := e.stdout, status := .exited 0, searched := e.searched }
    | .aborted => { stdout := e.stdout, status := .aborted, searched := e.searched }
    | .diverged => { stdout := e.stdout, status := .diverged, searched := e.searched }
  else
    { stdout := "Usage: queens-revised n\n", status := .exited 1, searched := false }

/-! ## Specification vocabulary -/

def attacks (p cur r c : Nat) : Prop := c = p ∨ c + (r - cur) = p ∨ c = p + (r - cur)

/-- Row masks that depth `i` starts from: row `r` of `board[i-1]`, all-zero at depth 0. -/
def prevBoard (s : State) (i : Nat) : Nat → Nat := fun r => if i = 0 then 0 else s.board (i - 1) r

/-- Illegal masks that depth `i` starts from: row `r` of `illegal[i-1]`, all-zero at depth 0. -/
def prevIllegal (s : State) (i : Nat) : Nat → Nat :=
  fun r => if i = 0 then 0 else s.illegal (i - 1) r

/-- No two of the queens in rows `0..m-1` share a column or a diagonal. -/
def Safe (col : Nat → Nat) (m : Nat) : Prop :=
  ∀ a b, a < b → b < m → ¬ attacks (col a) a b (col b)

/-- No queen in rows `0..m-1` is the midpoint of two others. -/
def NoMid (col : Nat → Nat) (m : Nat) : Prop :=
  ∀ a b, a < b → b + (b - a) < m → col (b + (b - a)) + col a ≠ 2 * col b

/-- Relation between the snapshot `(b, l)` a depth starts from and the columns `col` of the
queens in rows `0..i-1`. -/
structure Inv (revised : Bool) (n i : Nat) (b l col : Nat → Nat) : Prop where
  col_lt : ∀ r, r < i → col r < n
  board_eq : ∀ r, r < i → b r = 2 ^ col r
  marked : ∀ j, j < i → ∀ r, i ≤ r → r < n → ∀ c, c < n →
    attacks (col j) j r c → (l r).testBit c = true
  exact : revised = false → ∀ r, i ≤ r → r < n → ∀ c, c < n →
    (l r).testBit c = true → ∃ j, j < i ∧ attacks (col j) j r c
  coll : revised = true → n ≤ 32 → ∀ j k, j < k → k < i → ∀ r, i ≤ r → r < n →
    r = k + (k - j) → ∀ c, c < n → c + col j = 2 * col k → (l r).testBit c = true

/-- A classical solution: one queen per row at a column below `n`, no two attacking. -/
def Sol (n : Nat) (sol : Nat → Nat) : Prop := (∀ r, r < n → sol r < n) ∧ Safe sol n

/-- What the search guarantees of the queens in rows `0..m-1`. -/
def Good (revised : Bool) (n : Nat) (col : Nat → Nat) (m : Nat) : Prop :=
  Safe col m ∧ (revised = true → n ≤ 32 → NoMid col m)

/-- What a call at depth `i` guarantees when it starts from queens at `col` in rows `0..i-1`
and returns `b` in state `t`. -/
def Post (revised : Bool) (n i : Nat) (col : Nat → Nat) (b : Bool) (t : State) : Prop :=
  (b = true → ∃ col', Inv revised n n (prevBoard t n) (prevIllegal t n) col'
      ∧ Good revised n col' n ∧ ∀ r, r < i → col' r = col r)
  ∧ (b = false → revised = false → ∀ sol, Sol n sol → ¬ ∀ r, r < i → sol r = col r)

/-- The line of the grid for one row mask, as the specification words it: character `c` is
`o` if bit `c` of the mask is set and `.` otherwise. -/
def grid_line (x n : Nat) : String :=
  String.mk ((List.range n).map (fun c => if x.testBit c then 'o' else '.'))

/-- Rows `0..n-1` of the board `b` each hold exactly one queen: row `r` is the mask with the
single bit `col r` set, and `col r < n`. -/
def OneQueenPerRow (n : Nat) (b col : Nat → Nat) : Prop :=
  ∀ r, r < n → col r < n ∧ b r = 2 ^ col r ∧ ∀ k, (b r).testBit k = true ↔ k = col r

/-- The `n` columns are pairwise distinct and no two queens share a diagonal. -/
def NoSharedColumnOrDiagonal (n : Nat) (col : Nat → Nat) : Prop :=
  ∀ i j, i < n → j < n → i ≠ j →
    col i ≠ col j ∧ |(i : Int) - (j : Int)| ≠ |(col i : Int) - (col j : Int)|

/-- No three queens of rows `0..n-1` lie on a common straight line. -/
def NoThreeInLine (n : Nat) (col : Nat → Nat) : Prop :=
  ∀ a b c, a < b → b < c → c < n →
    ((col b : Int) - (col a : Int)) * ((c : Int) - (b : Int))
      ≠ ((col c : Int) - (col b : Int)) * ((b : Int) - (a : Int))

/-- No queen is the midpoint of two others: equally spaced rows never carry collinear
queens. -/
def NoEqualSpacedInLine (n : Nat) (col : Nat → Nat) : Prop :=
  ∀ i j k, i < j → j < k → k < n → k - j = j - i →
    (col k : Int) - (col j : Int) ≠ (col j : Int) - (col i : Int)

/-- Specification of `print_result` as the specification words it: `n` on its own line, then
for each row in order the 0-based column `col r` of its queen followed by a space, then a
newline. -/
def spec_print_result (col : Nat → Nat) (n : Nat) : String :=
  toString n ++ "\n" ++ String.join ((List.range n).map (fun r => toString (col r) ++ " "))
    ++ "\n"

/-- The classical search for board size `n` succeeds and returns a board that satisfies the
classical constraints. -/
def ClassicalSuccess (n : Nat) : Prop :=
  ∃ s, queens_recurse false n 0 zeroState = some (true, s)
    ∧ ∃ col, OneQueenPerRow n (s.board (n - 1)) col ∧ NoSharedColumnOrDiagonal n col

/-! ## States reached by the search -/

/-- The test of line 147 for column `c` at depth `i`: `i == 0 || is_legal(illegal[i-1], ...)`. -/
def legal_at (s : State) (i n c : Nat) : Prop :=
  i = 0 ∨ is_legal (s.illegal (i - 1)) i n (shl64 1 c) = true

instance legal_at_decidable (s : State) (i n c : Nat) : Decidable (legal_at s i n c) :=
  inferInstanceAs (Decidable (i = 0 ∨ is_legal (s.illegal (i - 1)) i n (shl64 1 c) = true))

/-- States of the run of `queens_recurse(board, illegal, n, 0)` on zeroed arrays.
`Reach revised n i s c` says that the run reaches, in a call at depth `i`, the test of the
loop of line 144 with `new_pos = c`, the arrays being `s` (for `c = 0`: the call has just been
entered).  An iteration either skips an illegal column, or commits the queen and enters the
call at depth `i + 1`, and goes on with the next column when that call has returned 0. -/
inductive Reach (revised : Bool) (n : Nat) : Nat → State → Nat → Prop where
  | start : Reach revised n 0 zeroState 0
  | skip {i : Nat} {s : State} {c : Nat} : Reach revised n i s c → i < n → c < n →
      ¬ legal_at s i n c → Reach revised n i s (c + 1)
  | enter {i : Nat} {s : State} {c : Nat} : Reach revised n i s c → i < n → c < n →
      legal_at s i n c → Reach revised n (i + 1) (place revised n i c s) 0
  | back {i : Nat} {s : State} {c : Nat} {s1 : State} : Reach revised n i s c → i < n → c < n →
      legal_at s i n c →
      queens_recurse revised n (i + 1) (place revised n i c s) = some (false, s1) →
      Reach revised n i s1 (c + 1)

/-- The arrays `t` right after a queen is committed at depth `i` (line 163 has run). -/
def Committed (revised : Bool) (n i : Nat) (t : State) : Prop :=
  ∃ s c, Reach revised n i s c ∧ i < n ∧ c < n ∧ legal_at s i n c ∧ t = place revised n i c s

/-- Lines 215-218: the column difference `col_diff = board_i_prev - board_i_cur` that the
collinearity pass computes for the pair `(i_prev, i_cur)`. -/
def col_diff (board : Nat → Nat) (i_prev i_cur : Nat) : Int :=
  (findfirstset (board i_prev) : Int) - (findfirstset (board i_cur) : Int)

/-- The arrays after queens are committed at the columns `cols`, one per depth from depth
`i` on, starting from the arrays `s`. -/
def descent (revised : Bool) (n : Nat) : List Nat → Nat → State → State
  | [], _, s => s
  | c :: cs, i, s => descent revised n cs (i + 1) (place revised n i c s)

/-- Whether `cols` is the first descent of the search from depth `i` and arrays `s`: at each
depth the column listed is legal and every smaller column is not. -/
def first_descent (revised : Bool) (n : Nat) : List Nat → Nat → State → Bool
  | [], _, _ => true
  | c :: cs, i, s =>
    decide (i < n) && decide (c < n) && decide (legal_at s i n c)
      && (List.range c).all (fun c1 => !decide (legal_at s i n c1))
      && first_descent revised n cs (i + 1) (place revised n i c s)

/-- The `k` lowest set bit of a mask: bit `k` is set and no lower bit is. -/
def IsLowestSetBit (x k : Nat) : Prop := x.testBit k = true ∧ ∀ j, j < k → x.testBit j = false

/-! ## The passes of `set_illegal` -/

/-- Lines 196-199: the left-diagonal pass of `set_illegal`. -/
def pass_left (i_cur n new_pos_bits new_pos : Nat) (illegal : Nat → Nat) : Nat → Nat :=
  forUp (fun step ill => store ill (i_cur + step) (ill (i_cur + step) ||| shr64 new_pos_bits step))
    (cmin (n - i_cur - 1) new_pos) 1 illegal

/-- Lines 201-204: the right-diagonal pass of `set_illegal`. -/
def pass_right (i_cur n new_pos_bits new_pos : Nat) (illegal : Nat → Nat) : Nat → Nat :=
  forUp (fun step ill => store ill (i_cur + step) (ill (i_cur + step) ||| shl64 new_pos_bits step))
    (cmin (n - i_cur - 1) (n - new_pos - 1)) 1 illegal

/-- Lines 207-209: the column pass of `set_illegal`. -/
def pass_column (i_cur n new_pos_bits : Nat) (illegal : Nat → Nat) : Nat → Nat :=
  forUp (fun step ill => store ill (i_cur + step) (ill (i_cur + step) ||| new_pos_bits))
    (n - i_cur - 1) 1 illegal

/-- Lines 211-233: the collinearity pass of `set_illegal`, present when `QUEENS_REVISED` is
on. -/
def pass_collinear (revised : Bool) (board : Nat → Nat) (i_cur n new_pos_bits : Nat)
    (illegal : Nat → Nat) : Nat → Nat :=
  if revised then
    forUp (fun i_prev ill => collinear_step board i_cur n new_pos_bits i_prev ill) i_cur 0 illegal
  else illegal

/-- The four contribution passes of one call of `set_illegal`, in source order. -/
def set_illegal_passes (revised : Bool) (board : Nat → Nat) (i_cur n new_pos_bits new_pos : Nat) :
    List ((Nat → Nat) → Nat → Nat) :=
  [pass_left i_cur n new_pos_bits new_pos, pass_right i_cur n new_pos_bits new_pos,
    pass_column i_cur n new_pos_bits, pass_collinear revised board i_cur n new_pos_bits]

/-- Application of a list of passes to an illegal array, first pass first. -/
def run_passes (passes : List ((Nat → Nat) → Nat → Nat)) (illegal : Nat → Nat) : Nat → Nat :=
  passes.foldl (fun ill pass => pass ill) illegal

/-- A pass that ORs a mask `M r`, fixed by the pass, into every row `r`, with nothing added
to the rows `0..cur`. -/
def OrMap (cur : Nat) (P : (Nat → Nat) → Nat → Nat) : Prop :=
  ∃ M : Nat → Nat, (∀ r, r ≤ cur → M r = 0) ∧ ∀ ill r, P ill r = ill r ||| M r

/-- Every illegal mask of the arrays fits the 64-bit row word. -/
def MasksBounded (s : State) : Prop := ∀ d r, s.illegal d r < 2 ^ 64

/-- Lexicographic order on the column sequences of rows `i..n-1`: `a` equals `b` there, or at
the first row where they differ `a` has the smaller column. -/
def LexLe (i n : Nat) (a b : Nat → Nat) : Prop :=
  (∀ r, i ≤ r → r < n → a r = b r)
    ∨ ∃ k, i ≤ k ∧ k < n ∧ (∀ r, i ≤ r → r < k → a r = b r) ∧ a k < b k

/-! ## Subscripts and shifts -/

/-- An operation of the program that C forbids out of range: a subscript into one of the
`row_t **` arrays (`n` snapshots), a subscript into a snapshot (`n` rows), or a shift of a
`row_t` by an amount. -/
inductive Check where
  | depth (k : Nat)
  | row (k : Nat)
  | shift (amount : Int)

/-- The operation is in range: a subscript lies in `[0, n)`, a shift amount in `[0, 63]`. -/
def Check.ok (n : Nat) : Check → Prop
  | Check.depth k => k < n
  | Check.row k => k < n
  | Check.shift amount => 0 ≤ amount ∧ amount ≤ 63

/-- Line 263: the subscripts `dest[i]` and `src[i]` of `copy(dest, src, n)`. -/
def copy_checks (n : Nat) : List Check :=
  (List.range n).flatMap (fun i => [Check.row i, Check.row i])

/-- Line 272: the subscripts `X[i]` of `zero(X, n)`. -/
def zero_checks (n : Nat) : List Check := (List.range n).map (fun i => Check.row i)

/-- Lines 221-231: the shifts and subscripts of the walk of the collinearity pass, one shift
(by `col_diff` or by `-col_diff`) and one subscript `illegal[i_rem]` per iteration, with the
loop test of `collinear_walk`. -/
def collinear_walk_checks (n row_diff : Nat) (col_diff : Int) : Nat → Nat → Nat → List Check
  | 0, _, _ => []
  | fuel + 1, i_rem, illegal_pos =>
    if i_rem < n ∧ illegal_pos ≠ 0 then
      let illegal_pos1 :=
        if col_diff > 0 then shr64 illegal_pos col_diff.toNat
        else shl64 illegal_pos (-col_diff).toNat
      Check.shift (if col_diff > 0 then col_diff else -col_diff) :: Check.row i_rem
        :: collinear_walk_checks n row_diff col_diff fuel (i_rem + row_diff) illegal_pos1
    else []

/-- Lines 196-233: the subscripts and shifts of one call of `set_illegal`: per step of the two
diagonal passes `illegal[i_cur + step]` and a shift by `step`, per step of the column pass
`illegal[i_cur + step]`, and per earlier row of the collinearity pass `board[i_prev]`,
`board[i_cur]` and the operations of the walk. -/
def set_illegal_checks (revised : Bool) (board : Nat → Nat) (i_cur n new_pos_bits new_pos : Nat) :
    List Check :=
  (List.range' 1 (cmin (n - i_cur - 1) new_pos)).flatMap
      (fun step => [Check.row (i_cur + step), Check.shift step])
    ++ (List.range' 1 (cmin (n - i_cur - 1) (n - new_pos - 1))).flatMap
      (fun step => [Check.row (i_cur + step), Check.shift step])
    ++ (List.range' 1 (n - i_cur - 1)).map (fun step => Check.row (i_cur + step))
    ++ (if revised then
        (List.range i_cur).flatMap (fun i_prev =>
          [Check.row i_prev, Check.row i_cur]
            ++ collinear_walk_checks n (i_cur - i_prev) (col_diff board i_prev i_cur) n
                (i_cur + (i_cur - i_prev)) new_pos_bits)
      else [])

/-- Lines 146-163: the subscripts and shifts of one iteration of the loop of `queens_recurse`
at depth `i` with `new_pos = c` in the arrays `s`: the shift `1 << new_pos`; unless `i == 0`,
`illegal[i - 1]` and the row `illegal[i]` read by `is_legal`; and, when the column is legal,
the snapshots named and the rows written by `copy` or `zero`, `board[i][i]`, the two
snapshots passed to `set_illegal` and the operations of `set_illegal`. -/
def iteration_checks (revised : Bool) (n i c : Nat) (s : State) : List Check :=
  [Check.shift c]
    ++ (if i = 0 then [] else [Check.depth (i - 1), Check.row i])
    ++ (if legal_at s i n c then
        (if i > 0 then
            [Check.depth i, Check.depth (i - 1)] ++ copy_checks n
              ++ [Check.depth i, Check.depth (i - 1)] ++ copy_checks n
          else [Check.depth i] ++ zero_checks n ++ [Check.depth i] ++ zero_checks n)
          ++ [Check.depth i, Check.row i]
          ++ [Check.depth i, Check.depth i]
          ++ set_illegal_checks revised ((place revised n i c s).board i) i n (shl64 1 c) c
      else [])

/-- Exact reading of the illegal masks `l` with the revised rule on, for the queens `col` of
rows `0..i-1`: bit `c` of the mask of a row `r ≥ i` is set if and only if `c < n` and a queen
attacks the square `(r, c)` along its column or a diagonal, or `c < 64` and the square
continues the line through two queens `j < k` by `m ≥ 1` strides of `k - j` rows. -/
def ExactRev (n i : Nat) (l col : Nat → Nat) : Prop :=
  ∀ r, i ≤ r → r < n → ∀ c, (l r).testBit c = true ↔
    (c < n ∧ ∃ j, j < i ∧ attacks (col j) j r c)
      ∨ (c < 64 ∧ ∃ j k m, j < k ∧ k < i ∧ 1 ≤ m ∧ r = k + m * (k - j)
          ∧ (c : Int) = (col k : Int) + (m : Int) * ((col k : Int) - (col j : Int)))

/-! ## Closed forms of the array loops -/

theorem store_apply (a : Nat → Nat) (i v j : Nat) :
    store a i v j = if j = i then v else a j := rfl

theorem forUp_succ {σ : Type} (body : Nat → σ → σ) (count start : Nat) (s : σ) :
    forUp body (count + 1) start s = forUp body count (start + 1) (body start s) := rfl

/-- Closed form of a loop that ORs `f step` into entry `base + step`. -/
theorem forUp_or_apply (f : Nat → Nat) (base : Nat) :
    ∀ (count start : Nat) (ill : Nat → Nat) (r : Nat),
      forUp (fun step ill => store ill (base + step) (ill (base + step) ||| f step))
          count start ill r
        = if base + start ≤ r ∧ r < base + start + count then ill r ||| f (r - base)
          else ill r := by
  intro count
  induction count with
  | zero =>
    intro start ill r
    have h : ¬ (base + start ≤ r ∧ r < base + start + 0) := by omega
    simp only [forUp, if_neg h]
  | succ k ih =>
    intro start ill r
    rw [forUp_succ, ih]
    by_cases h1 : r = base + start
    · subst h1
      simp [store_apply]
    · by_cases h2 : base + start + 1 ≤ r ∧ r < base + start + 1 + k
      · have h3 : base + start ≤ r ∧ r < base + start + (k + 1) := by omega
        have h2' : base + (start + 1) ≤ r ∧ r < base + (start + 1) + k := by omega
        simp [store_apply, h1, h2', h3]
      · have h3 : ¬ (base + start ≤ r ∧ r < base + start + (k + 1)) := by omega
        have h2' : ¬ (base + (start + 1) ≤ r ∧ r < base + (start + 1) + k) := by omega
        simp [store_apply, h1, h2', h3]

theorem forUp_set_apply (g : Nat → Nat) :
    ∀ (count start : Nat) (d : Nat → Nat) (r : Nat),
      forUp (fun i d => store d i (g i)) count start d r
        = if start ≤ r ∧ r < start + count then g r else d r := by
  intro count
  induction count with
  | zero =>
    intro start d r
    have h : ¬ (start ≤ r ∧ r < start + 0) := by omega
    simp only [forUp, if_neg h]
  | succ k ih =>
    intro start d r
    rw [forUp_succ, ih]
    by_cases h1 : r = start
    · subst h1
      simp [store_apply]
    · by_cases h2 : start + 1 ≤ r ∧ r < start + 1 + k
      · have h3 : start ≤ r ∧ r < start + (k + 1) := by omega
        simp [store_apply, h1, h2, h3]
      · have h3 : ¬ (start ≤ r ∧ r < start + (k + 1)) := by omega
        simp [store_apply, h1, h2, h3]

theorem copy_apply (dest src : Nat → Nat) (n r : Nat) :
    copy dest src n r = if r < n then src r else dest r := by
  unfold copy
  rw [forUp_set_apply]
  simp

theorem zero_apply (X : Nat → Nat) (n r : Nat) :
    zero X n r = if r < n then 0 else X r := by
  unfold zero
  rw [forUp_set_apply (fun _ => 0)]
  simp

/-! ## Bit-level reading of the classical passes -/

theorem shl64_one (k : Nat) (hk : k < 64) : shl64 1 k = 2 ^ k := by
  unfold shl64
  rw [Nat.one_shiftLeft]
  exact Nat.mod_eq_of_lt (Nat.pow_lt_pow_right (by decide) hk)

theorem testBit_shr64_two_pow (p step c : Nat) :
    (shr64 (2 ^ p) step).testBit c = true ↔ c + step = p := by
  unfold shr64
  rw [Nat.testBit_shiftRight, Nat.testBit_two_pow, decide_eq_true_eq]
  omega

theorem testBit_shl64_two_pow (p step c : Nat) :
    (shl64 (2 ^ p) step).testBit c = true ↔ c = p + step ∧ c < 64 := by
  unfold shl64
  rw [Nat.testBit_mod_two_pow, Nat.testBit_shiftLeft, Nat.testBit_two_pow]
  simp only [Bool.and_eq_true, decide_eq_true_eq]
  omega

/-- Closed form of the three classical passes of `set_illegal`. -/
theorem set_illegal_classical_apply (board illegal : Nat → Nat) (cur n bits p r : Nat) :
    set_illegal false board illegal cur n bits p r
      = if cur < r ∧ r < n then
          ((if r - cur ≤ p then illegal r ||| shr64 bits (r - cur) else illegal r)
            ||| (if r - cur ≤ n - p - 1 then shl64 bits (r - cur) else 0)) ||| bits
        else illegal r := by
  unfold set_illegal
  simp only [Bool.false_eq_true, if_false]
  rw [forUp_or_apply (fun _ => bits), forUp_or_apply (fun step => shl64 bits step),
    forUp_or_apply (fun step => shr64 bits step)]
  unfold cmin
  by_cases h : cur < r ∧ r < n
  · have h1 : cur + 1 ≤ r ∧ r < cur + 1 + (n - cur - 1) := by omega
    rw [if_pos h, if_pos h1]
    congr 1
    by_cases h2 : r - cur ≤ n - p - 1
    · have h3 : cur + 1 ≤ r ∧ r < cur + 1 + (if n - cur - 1 < n - p - 1 then n - cur - 1 else n - p - 1) := by
        split <;> omega
      rw [if_pos h2, if_pos h3]
      congr 1
      by_cases h4 : r - cur ≤ p
      · have h5 : cur + 1 ≤ r ∧ r < cur + 1 + (if n - cur - 1 < p then n - cur - 1 else p) := by
          split <;> omega
        rw [if_pos h4, if_pos h5]
      · have h5 : ¬ (cur + 1 ≤ r ∧ r < cur + 1 + (if n - cur - 1 < p then n - cur - 1 else p)) := by
          split <;> omega
        rw [if_neg h4, if_neg h5]
    · have h3 : ¬ (cur + 1 ≤ r ∧ r < cur + 1 + (if n - cur - 1 < n - p - 1 then n - cur - 1 else n - p - 1)) := by
        split <;> omega
      rw [if_neg h2, if_neg h3, Nat.or_zero]
      by_cases h4 : r - cur ≤ p
      · have h5 : cur + 1 ≤ r ∧ r < cur + 1 + (if n - cur - 1 < p then n - cur - 1 else p) := by
          split <;> omega
        rw [if_pos h4, if_pos h5]
      · have h5 : ¬ (cur + 1 ≤ r ∧ r < cur + 1 + (if n - cur - 1 < p then n - cur - 1 else p)) := by
          split <;> omega
        rw [if_neg h4, if_neg h5]
  · have h1 : ¬ (cur + 1 ≤ r ∧ r < cur + 1 + (n - cur - 1)) := by omega
    have h3 : ¬ (cur + 1 ≤ r ∧ r < cur + 1 + (if n - cur - 1 < n - p - 1 then n - cur - 1 else n - p - 1)) := by
      split <;> omega
    have h5 : ¬ (cur + 1 ≤ r ∧ r < cur + 1 + (if n - cur - 1 < p then n - cur - 1 else p)) := by
      split <;> omega
    rw [if_neg h, if_neg h1, if_neg h3, if_neg h5]

/-- Bit-level reading of the three classical passes: a bit of a later row is set afterwards
iff it was set before or the new queen attacks that square. -/
theorem testBit_set_illegal_classical (board illegal : Nat → Nat) (cur n p r c : Nat)
    (hr : cur < r) (hrn : r < n) (hp : p < n) (hc : c < n) (hn : n ≤ 64) :
    (set_illegal false board illegal cur n (2 ^ p) p r).testBit c = true
      ↔ ((illegal r).testBit c = true ∨ attacks p cur r c) := by
  rw [set_illegal_classical_apply, if_pos ⟨hr, hrn⟩]
  rw [Nat.testBit_lor, Nat.testBit_lor, Nat.testBit_two_pow]
  unfold attacks
  by_cases h1 : r - cur ≤ p <;> by_cases h2 : r - cur ≤ n - p - 1
  all_goals simp only [h1, h2, if_true, if_false, Nat.testBit_lor, Bool.or_eq_true,
    testBit_shr64_two_pow, testBit_shl64_two_pow, Nat.zero_testBit, decide_eq_true_eq]
  all_goals by_cases hb : (illegal r).testBit c = true
  all_goals simp only [hb, true_or, false_or, or_false, Bool.false_eq_true, iff_true, iff_self]
  all_goals omega

/-! ## The collinearity pass -/

theorem ffsScan_spec (x k : Nat) (hk : x.testBit k = true) :
    ∀ (fuel start : Nat), (∀ j, start ≤ j → j < k → x.testBit j = false) → start ≤ k →
      k < start + fuel → ffsScan x fuel start = k + 1 := by
  intro fuel
  induction fuel with
  | zero => intro start _ h1 h2; omega
  | succ f ih =>
    intro start hlow h1 h2
    unfold ffsScan
    by_cases h : start = k
    · subst h
      rw [if_pos hk]
    · have hlt : start < k := by omega
      have hb : x.testBit start = false := hlow start (Nat.le_refl _) hlt
      rw [hb]
      simp only [Bool.false_eq_true, if_false]
      exact ih (start + 1) (fun j hj hjk => hlow j (by omega) hjk) (by omega) (by omega)

theorem findfirstset_two_pow (k : Nat) (hk : k < 32) : findfirstset (2 ^ k) = k + 1 := by
  unfold findfirstset builtin_ffs
  have hlt : 2 ^ k < 2 ^ 32 := Nat.pow_lt_pow_right (by decide) hk
  rw [Nat.mod_eq_of_lt hlt]
  apply ffsScan_spec (2 ^ k) k
  · rw [Nat.testBit_two_pow]; simp
  · intro j _ hj
    rw [Nat.testBit_two_pow]
    simp only [decide_eq_false_iff_not]
    omega
  · exact Nat.zero_le _
  · omega

/-- A loop whose body never clears a property keeps it. -/
theorem forUp_preserves {σ : Type} (body : Nat → σ → σ) (Q : σ → Prop)
    (hbody : ∀ k s, Q s → Q (body k s)) :
    ∀ (count start : Nat) (s : σ), Q s → Q (forUp body count start s) := by
  intro count
  induction count with
  | zero => intro start s h; exact h
  | succ k ih => intro start s h; exact ih (start + 1) (body start s) (hbody start s h)

/-- A loop establishes a property that iteration `k` establishes and no iteration clears. -/
theorem forUp_establishes {σ : Type} (body : Nat → σ → σ) (Q : σ → Prop) (k : Nat)
    (hk : ∀ s, Q (body k s)) (hbody : ∀ j s, Q s → Q (body j s)) :
    ∀ (count start : Nat) (s : σ), start ≤ k → k < start + count →
      Q (forUp body count start s) := by
  intro count
  induction count with
  | zero => intro start s h1 h2; omega
  | succ m ih =>
    intro start s h1 h2
    rw [forUp_succ]
    by_cases h : start = k
    · subst h
      exact forUp_preserves body Q hbody m (start + 1) (body start s) (hk s)
    · exact ih (start + 1) (body start s) (by omega) (by omega)

theorem collinear_walk_mono (n rd : Nat) (cd : Int) (r c : Nat) :
    ∀ (fuel i_rem pos : Nat) (ill : Nat → Nat), (ill r).testBit c = true →
      (collinear_walk n rd cd fuel i_rem pos ill r).testBit c = true := by
  intro fuel
  induction fuel with
  | zero => intro i_rem pos ill h; exact h
  | succ f ih =>
    intro i_rem pos ill h
    unfold collinear_walk
    split
    · apply ih
      rw [store_apply]
      split
      · rename_i heq
        subst heq
        rw [Nat.testBit_lor, h, Bool.true_or]
      · exact h
    · exact h

/-- The first iteration of the walk marks the shifted position in row `i_rem`. -/
theorem collinear_walk_first (n rd : Nat) (cd : Int) (fuel i_rem pos : Nat) (ill : Nat → Nat)
    (c : Nat) (hrem : i_rem < n) (hpos : pos ≠ 0)
    (hbit : (if cd > 0 then shr64 pos cd.toNat else shl64 pos (-cd).toNat).testBit c = true) :
    (collinear_walk n rd cd (fuel + 1) i_rem pos ill i_rem).testBit c = true := by
  unfold collinear_walk
  rw [if_pos ⟨hrem, hpos⟩]
  apply collinear_walk_mono
  rw [store_apply, if_pos rfl, Nat.testBit_lor, hbit, Bool.or_true]

/-- The walk needs no more than `n - i_rem` iterations when the stride is positive: extra
fuel does not change its result, so the fuel `n` given by `collinear_step` is enough. -/
theorem collinear_walk_fuel (n rd : Nat) (cd : Int) (hrd : 1 ≤ rd) (extra : Nat) :
    ∀ (fuel i_rem pos : Nat) (ill : Nat → Nat), n ≤ i_rem + fuel →
      collinear_walk n rd cd (fuel + extra) i_rem pos ill
        = collinear_walk n rd cd fuel i_rem pos ill := by
  intro fuel
  induction fuel with
  | zero =>
    intro i_rem pos ill h
    cases extra with
    | zero => rfl
    | succ e =>
      have hn : ¬ (i_rem < n ∧ pos ≠ 0) := by omega
      simp only [Nat.zero_add, collinear_walk, if_neg hn]
  | succ f ih =>
    intro i_rem pos ill h
    rw [show f + 1 + extra = (f + extra) + 1 by omega]
    unfold collinear_walk
    split
    · exact ih _ _ _ (by omega)
    · rfl

theorem collinear_step_mono (board : Nat → Nat) (cur n bits i_prev : Nat) (ill : Nat → Nat)
    (r c : Nat) (h : (ill r).testBit c = true) :
    (collinear_step board cur n bits i_prev ill r).testBit c = true := by
  unfold collinear_step
  exact collinear_walk_mono _ _ _ _ _ _ _ _ _ h

theorem set_illegal_revised_eq (board illegal : Nat → Nat) (cur n bits p : Nat) :
    set_illegal true board illegal cur n bits p
      = forUp (fun i_prev ill => collinear_step board cur n bits i_prev ill) cur 0
          (set_illegal false board illegal cur n bits p) := by
  unfold set_illegal
  simp

/-- Every pass of `set_illegal` only sets bits, in either rule configuration. -/
theorem set_illegal_mono (revised : Bool) (board illegal : Nat → Nat) (cur n bits p r c : Nat)
    (h : (illegal r).testBit c = true) :
    (set_illegal revised board illegal cur n bits p r).testBit c = true := by
  have hcl : (set_illegal false board illegal cur n bits p r).testBit c = true := by
    rw [set_illegal_classical_apply]
    split
    · rw [Nat.testBit_lor, Nat.testBit_lor]
      split <;> simp [Nat.testBit_lor, h]
    · exact h
  cases revised with
  | false => exact hcl
  | true =>
    rw [set_illegal_revised_eq]
    exact forUp_preserves _ (fun ill => (ill r).testBit c = true)
      (fun k s hs => collinear_step_mono board cur n bits k s r c hs) cur 0 _ hcl

/-- The classical marks are present in either rule configuration. -/
theorem set_illegal_marks (revised : Bool) (board illegal : Nat → Nat) (cur n p r c : Nat)
    (hr : cur < r) (hrn : r < n) (hp : p < n) (hc : c < n) (hn : n ≤ 64)
    (h : attacks p cur r c) :
    (set_illegal revised board illegal cur n (2 ^ p) p r).testBit c = true := by
  have hcl : (set_illegal false board illegal cur n (2 ^ p) p r).testBit c = true :=
    (testBit_set_illegal_classical board illegal cur n p r c hr hrn hp hc hn).mpr (Or.inr h)
  cases revised with
  | false => exact hcl
  | true =>
    rw [set_illegal_revised_eq]
    exact forUp_preserves _ (fun ill => (ill r).testBit c = true)
      (fun k s hs => collinear_step_mono board cur n (2 ^ p) k s r c hs) cur 0 _ hcl

/-- With the revised rule on and columns below 32, the pass for the pair `(prev, cur)` marks
the square that continues the line through the two queens by one more stride. -/
theorem set_illegal_marks_collinear (board illegal : Nat → Nat) (cur n q prev p r c : Nat)
    (hprev : prev < cur) (hbp : board prev = 2 ^ p) (hbc : board cur = 2 ^ q)
    (hp : p < 32) (hq : q < 32) (hr : r = cur + (cur - prev)) (hrn : r < n)
    (hc : c + p = 2 * q) (hc64 : c < 64) :
    (set_illegal true board illegal cur n (2 ^ q) q r).testBit c = true := by
  rw [set_illegal_revised_eq]
  have hstep : ∀ ill : Nat → Nat,
      (collinear_step board cur n (2 ^ q) prev ill r).testBit c = true := by
    intro ill
    unfold collinear_step
    simp only [hbp, hbc, findfirstset_two_pow p hp, findfirstset_two_pow q hq]
    have hfuel : n = (n - 1) + 1 := by omega
    rw [hfuel, ← hr]
    have hrn' : r < n - 1 + 1 := by omega
    apply collinear_walk_first _ _ _ _ _ _ _ _ hrn'
      (Nat.pos_iff_ne_zero.mp (Nat.two_pow_pos q))
    split
    · rename_i hpos
      rw [testBit_shr64_two_pow]
      push_cast at hpos ⊢
      omega
    · rename_i hneg
      rw [testBit_shl64_two_pow]
      push_cast at hneg ⊢
      omega
  exact forUp_establishes (fun i_prev ill => collinear_step board cur n (2 ^ q) i_prev ill)
    (fun ill => (ill r).testBit c = true) prev hstep
    (fun j s hs => collinear_step_mono board cur n (2 ^ q) j s r c hs) cur 0 _
    (Nat.zero_le _) (by omega)

/-! ## The invariant of the search -/

theorem and_two_pow_eq_zero (x c : Nat) : x &&& 2 ^ c = 0 ↔ x.testBit c = false := by
  constructor
  · intro h
    have h1 : (x &&& 2 ^ c).testBit c = false := by rw [h, Nat.zero_testBit]
    rw [Nat.testBit_and, Nat.testBit_two_pow] at h1
    simpa using h1
  · intro h
    apply Nat.eq_of_testBit_eq
    intro i
    rw [Nat.testBit_and, Nat.testBit_two_pow, Nat.zero_testBit]
    by_cases hi : c = i
    · subst hi; simp [h]
    · simp [hi]

theorem is_legal_iff (l : Nat → Nat) (i n c : Nat) (hc : c < 64) :
    is_legal l i n (shl64 1 c) = true ↔ (l i).testBit c = false := by
  unfold is_legal
  rw [shl64_one c hc]
  simp only [beq_iff_eq]
  exact and_two_pow_eq_zero (l i) c

theorem inv_zero (revised : Bool) (n : Nat) (col : Nat → Nat) :
    Inv revised n 0 (fun _ => 0) (fun _ => 0) col where
  col_lt := fun r hr => absurd hr (Nat.not_lt_zero r)
  board_eq := fun r hr => absurd hr (Nat.not_lt_zero r)
  marked := fun j hj => absurd hj (Nat.not_lt_zero j)
  exact := fun _ r _ _ c _ h => by simp at h
  coll := fun _ _ j k _ hk => absurd hk (Nat.not_lt_zero k)

/-- Committing a queen at a column `c < n` of row `i` re-establishes the invariant one row
further down. -/
theorem place_inv (revised : Bool) (n i c : Nat) (b l b0 l0 col : Nat → Nat)
    (hinv : Inv revised n i b l col) (hi : i < n) (hc : c < n) (hn : n ≤ 64)
    (hb0 : ∀ r, r < n → b0 r = b r) (hl0 : ∀ r, r < n → l0 r = l r) :
    Inv revised n (i + 1) (store b0 i (2 ^ c))
      (set_illegal revised (store b0 i (2 ^ c)) l0 i n (2 ^ c) c) (store col i c) where
  col_lt := by
    intro r hr
    rw [store_apply]
    split
    · exact hc
    · exact hinv.col_lt r (by omega)
  board_eq := by
    intro r hr
    rw [store_apply, store_apply]
    split
    · rfl
    · rw [hb0 r (by omega)]
      exact hinv.board_eq r (by omega)
  marked := by
    intro j hj r hr hrn c' hc' hatt
    rw [store_apply] at hatt
    by_cases hji : j = i
    · rw [if_pos hji] at hatt
      subst hji
      exact set_illegal_marks revised _ l0 j n c r c' (by omega) hrn hc hc' hn hatt
    · rw [if_neg hji] at hatt
      apply set_illegal_mono
      rw [hl0 r hrn]
      exact hinv.marked j (by omega) r (by omega) hrn c' hc' hatt
  exact := by
    intro hrev r hr hrn c' hc' hbit
    subst hrev
    rw [testBit_set_illegal_classical _ l0 i n c r c' (by omega) hrn hc hc' hn] at hbit
    rcases hbit with hold | hnew
    · rw [hl0 r hrn] at hold
      obtain ⟨j, hj, hatt⟩ := hinv.exact rfl r (by omega) hrn c' hc' hold
      refine ⟨j, by omega, ?_⟩
      rw [store_apply, if_neg (by omega)]
      exact hatt
    · refine ⟨i, by omega, ?_⟩
      rw [store_apply, if_pos rfl]
      exact hnew
  coll := by
    intro hrev hn32 j k hjk hk r hr hrn hreq c' hc' hcol
    subst hrev
    rw [store_apply, store_apply, if_neg (by omega)] at hcol
    by_cases hki : k = i
    · rw [if_pos hki] at hcol
      subst hki
      have hbj : store b0 k (2 ^ c) j = 2 ^ col j := by
        rw [store_apply, if_neg (by omega), hb0 j (by omega)]
        exact hinv.board_eq j hjk
      have hbk : store b0 k (2 ^ c) k = 2 ^ c := by rw [store_apply, if_pos rfl]
      have hcj : col j < n := hinv.col_lt j hjk
      exact set_illegal_marks_collinear _ l0 k n c j (col j) r c' hjk hbj hbk (by omega)
        (by omega) hreq hrn hcol (by omega)
    · rw [if_neg hki] at hcol
      apply set_illegal_mono
      rw [hl0 r hrn]
      exact hinv.coll rfl hn32 j k hjk (by omega) r (by omega) hrn hreq c' hc' hcol

/-! ## Frame and termination -/

theorem qrf_done (revised : Bool) (n fuel : Nat) (s : State) :
    queens_recurse_fuel revised n fuel n s = some (true, s) := by
  cases fuel <;> simp [queens_recurse_fuel]

theorem qrf_zero (revised : Bool) (n i : Nat) (s : State) (h : i ≠ n) :
    queens_recurse_fuel revised n 0 i s = none := by
  simp [queens_recurse_fuel, h]

theorem qrf_succ (revised : Bool) (n fuel i : Nat) (s : State) (h : i ≠ n) :
    queens_recurse_fuel revised n (fuel + 1) i s
      = try_columns revised n i (queens_recurse_fuel revised n fuel (i + 1)) n 0 s := by
  simp [queens_recurse_fuel, h]

theorem try_columns_zero (revised : Bool) (n i : Nat) (recurse : State → Option (Bool × State))
    (new_pos : Nat) (s : State) :
    try_columns revised n i recurse 0 new_pos s = some (false, s) := rfl

theorem try_columns_skip (revised : Bool) (n i : Nat) (recurse : State → Option (Bool × State))
    (count new_pos : Nat) (s : State)
    (h : ¬ (i = 0 ∨ is_legal (s.illegal (i - 1)) i n (shl64 1 new_pos) = true)) :
    try_columns revised n i recurse (count + 1) new_pos s
      = try_columns revised n i recurse count (new_pos + 1) s := by
  simp only [try_columns, if_neg h]

theorem try_columns_take_none (revised : Bool) (n i : Nat)
    (recurse : State → Option (Bool × State)) (count new_pos : Nat) (s : State)
    (h : i = 0 ∨ is_legal (s.illegal (i - 1)) i n (shl64 1 new_pos) = true)
    (hr : recurse (place revised n i new_pos s) = none) :
    try_columns revised n i recurse (count + 1) new_pos s = none := by
  simp only [try_columns, if_pos h, hr]

theorem try_columns_take_true (revised : Bool) (n i : Nat)
    (recurse : State → Option (Bool × State)) (count new_pos : Nat) (s s1 : State)
    (h : i = 0 ∨ is_legal (s.illegal (i - 1)) i n (shl64 1 new_pos) = true)
    (hr : recurse (place revised n i new_pos s) = some (true, s1)) :
    try_columns revised n i recurse (count + 1) new_pos s = some (true, s1) := by
  simp only [try_columns, if_pos h, hr]

theorem try_columns_take_false (revised : Bool) (n i : Nat)
    (recurse : State → Option (Bool × State)) (count new_pos : Nat) (s s1 : State)
    (h : i = 0 ∨ is_legal (s.illegal (i - 1)) i n (shl64 1 new_pos) = true)
    (hr : recurse (place revised n i new_pos s) = some (false, s1)) :
    try_columns revised n i recurse (count + 1) new_pos s
      = try_columns revised n i recurse count (new_pos + 1) s1 := by
  simp only [try_columns, if_pos h, hr]

theorem place_board_ne (revised : Bool) (n i c d : Nat) (s : State) (h : d ≠ i) :
    (place revised n i c s).board d = s.board d := by
  simp [place, h]

theorem place_illegal_ne (revised : Bool) (n i c d : Nat) (s : State) (h : d ≠ i) :
    (place revised n i c s).illegal d = s.illegal d := by
  simp [place, h]

/-- Snapshots at depths other than `i` are untouched by the loop at depth `i`, provided the
recursive call leaves depths `≤ i` alone. -/
theorem try_columns_frame (revised : Bool) (n i : Nat) (recurse : State → Option (Bool × State))
    (hrec : ∀ s r, recurse s = some r → ∀ d, d ≤ i →
      r.2.board d = s.board d ∧ r.2.illegal d = s.illegal d) :
    ∀ (count new_pos : Nat) (s : State) (r : Bool × State),
      try_columns revised n i recurse count new_pos s = some r →
      ∀ d, d < i → r.2.board d = s.board d ∧ r.2.illegal d = s.illegal d := by
  intro count
  induction count with
  | zero =>
    intro new_pos s r h d _
    rw [try_columns_zero] at h
    cases h
    exact ⟨rfl, rfl⟩
  | succ k ih =>
    intro new_pos s r h d hd
    by_cases hl : i = 0 ∨ is_legal (s.illegal (i - 1)) i n (shl64 1 new_pos) = true
    · have hpl : (place revised n i new_pos s).board d = s.board d
          ∧ (place revised n i new_pos s).illegal d = s.illegal d :=
        ⟨place_board_ne _ _ _ _ _ _ (by omega), place_illegal_ne _ _ _ _ _ _ (by omega)⟩
      cases hr : recurse (place revised n i new_pos s) with
      | none => rw [try_columns_take_none _ _ _ _ _ _ _ hl hr] at h; cases h
      | some res =>
        obtain ⟨b, s1⟩ := res
        have h1 := hrec _ _ hr d (by omega)
        cases b with
        | true =>
          rw [try_columns_take_true _ _ _ _ _ _ _ _ hl hr] at h
          cases h
          exact ⟨h1.1.trans hpl.1, h1.2.trans hpl.2⟩
        | false =>
          rw [try_columns_take_false _ _ _ _ _ _ _ _ hl hr] at h
          have h2 := ih (new_pos + 1) s1 r h d hd
          exact ⟨h2.1.trans (h1.1.trans hpl.1), h2.2.trans (h1.2.trans hpl.2)⟩
    · rw [try_columns_skip _ _ _ _ _ _ _ hl] at h
      exact ih (new_pos + 1) s r h d hd

/-- A call at depth `i` leaves every snapshot at a depth below `i` unchanged. -/
theorem queens_recurse_fuel_frame (revised : Bool) (n : Nat) :
    ∀ (fuel i : Nat) (s : State) (r : Bool × State),
      queens_recurse_fuel revised n fuel i s = some r →
      ∀ d, d < i → r.2.board d = s.board d ∧ r.2.illegal d = s.illegal d := by
  intro fuel
  induction fuel with
  | zero =>
    intro i s r h d _
    by_cases hin : i = n
    · subst hin
      rw [qrf_done] at h
      cases h
      exact ⟨rfl, rfl⟩
    · rw [qrf_zero _ _ _ _ hin] at h
      cases h
  | succ f ih =>
    intro i s r h d hd
    by_cases hin : i = n
    · subst hin
      rw [qrf_done] at h
      cases h
      exact ⟨rfl, rfl⟩
    · rw [qrf_succ _ _ _ _ _ hin] at h
      exact try_columns_frame revised n i _
        (fun s' r' hr' d' hd' => ih (i + 1) s' r' hr' d' (by omega)) n 0 s r h d hd

theorem try_columns_total (revised : Bool) (n i : Nat) (recurse : State → Option (Bool × State))
    (hrec : ∀ s, ∃ r, recurse s = some r) :
    ∀ (count new_pos : Nat) (s : State),
      ∃ r, try_columns revised n i recurse count new_pos s = some r := by
  intro count
  induction count with
  | zero => intro new_pos s; exact ⟨_, rfl⟩
  | succ k ih =>
    intro new_pos s
    by_cases hl : i = 0 ∨ is_legal (s.illegal (i - 1)) i n (shl64 1 new_pos) = true
    · obtain ⟨⟨b, s1⟩, hr⟩ := hrec (place revised n i new_pos s)
      cases b with
      | true => exact ⟨_, try_columns_take_true _ _ _ _ _ _ _ _ hl hr⟩
      | false =>
        rw [try_columns_take_false _ _ _ _ _ _ _ _ hl hr]
        exact ih (new_pos + 1) s1
    · rw [try_columns_skip _ _ _ _ _ _ _ hl]
      exact ih (new_pos + 1) s

/-- With fuel `n - i` a call at depth `i ≤ n` returns. -/
theorem queens_recurse_fuel_total (revised : Bool) (n : Nat) :
    ∀ (fuel i : Nat) (s : State), i + fuel = n →
      ∃ r, queens_recurse_fuel revised n fuel i s = some r := by
  intro fuel
  induction fuel with
  | zero =>
    intro i s h
    have hin : i = n := by omega
    subst hin
    exact ⟨_, qrf_done _ _ _ _⟩
  | succ f ih =>
    intro i s h
    have hin : i ≠ n := by omega
    rw [qrf_succ _ _ _ _ _ hin]
    exact try_columns_total revised n i _ (fun s' => ih (i + 1) s' (by omega)) n 0 s

theorem queens_recurse_total (revised : Bool) (n i : Nat) (s : State) (h : i ≤ n) :
    ∃ r, queens_recurse revised n i s = some r :=
  queens_recurse_fuel_total revised n (n - i) i s (by omega)

/-! ## Specification of the search -/

theorem legal_iff_prev (s : State) (i n c : Nat) (hc : c < 64) :
    (i = 0 ∨ is_legal (s.illegal (i - 1)) i n (shl64 1 c) = true)
      ↔ (prevIllegal s i i).testBit c = false := by
  unfold prevIllegal
  by_cases hi : i = 0
  · simp [hi]
  · rw [if_neg hi, is_legal_iff _ _ _ _ hc]
    simp [hi]

theorem place_prevBoard (revised : Bool) (n i c : Nat) (s : State) (hc : c < 64) :
    ∃ b0 : Nat → Nat, (∀ r, r < n → b0 r = prevBoard s i r) ∧ ∃ l0 : Nat → Nat,
      (∀ r, r < n → l0 r = prevIllegal s i r)
      ∧ prevBoard (place revised n i c s) (i + 1) = store b0 i (2 ^ c)
      ∧ prevIllegal (place revised n i c s) (i + 1)
          = set_illegal revised (store b0 i (2 ^ c)) l0 i n (2 ^ c) c := by
  refine ⟨if i > 0 then copy (s.board i) (s.board (i - 1)) n else zero (s.board i) n, ?_,
    if i > 0 then copy (s.illegal i) (s.illegal (i - 1)) n else zero (s.illegal i) n, ?_, ?_, ?_⟩
  · intro r hr
    unfold prevBoard
    by_cases hi : i = 0
    · simp [hi, zero_apply, hr]
    · have : i > 0 := by omega
      simp [hi, this, copy_apply, hr]
  · intro r hr
    unfold prevIllegal
    by_cases hi : i = 0
    · simp [hi, zero_apply, hr]
    · have : i > 0 := by omega
      simp [hi, this, copy_apply, hr]
  · funext r
    simp [prevBoard, place, shl64_one c hc]
  · funext r
    simp [prevIllegal, place, shl64_one c hc]

theorem good_extend (revised : Bool) (n i c : Nat) (b l col : Nat → Nat)
    (hinv : Inv revised n i b l col) (hgood : Good revised n col i) (hi : i < n) (hc : c < n)
    (hbit : (l i).testBit c = false) : Good revised n (store col i c) (i + 1) := by
  constructor
  · intro a b' hab hb' hatt
    rw [store_apply, store_apply, if_neg (by omega)] at hatt
    by_cases hbi : b' = i
    · rw [if_pos hbi] at hatt
      subst hbi
      have := hinv.marked a hab b' (Nat.le_refl _) hi c hc hatt
      rw [hbit] at this
      cases this
    · rw [if_neg hbi] at hatt
      exact hgood.1 a b' hab (by omega) hatt
  · intro hrev hn32 a b' hab hb' heq
    rw [store_apply, store_apply, store_apply, if_neg (show ¬ a = i by omega),
      if_neg (show ¬ b' = i by omega)] at heq
    by_cases hbi : b' + (b' - a) = i
    · rw [if_pos hbi] at heq
      have := hinv.coll hrev hn32 a b' hab (by omega) i (Nat.le_refl _) hi hbi.symm c hc heq
      rw [hbit] at this
      cases this
    · rw [if_neg hbi] at heq
      exact hgood.2 hrev hn32 a b' hab (by omega) heq

/-- Specification of the loop over the columns of row `i`. -/
theorem try_columns_spec (revised : Bool) (n i : Nat) (hn : n ≤ 64) (hi : i < n)
    (pb pl col : Nat → Nat) (hinv : Inv revised n i pb pl col) (hgood : Good revised n col i)
    (recurse : State → Option (Bool × State))
    (hframe : ∀ s r, recurse s = some r → ∀ d, d ≤ i →
      r.2.board d = s.board d ∧ r.2.illegal d = s.illegal d)
    (hrec : ∀ s col1, Inv revised n (i + 1) (prevBoard s (i + 1)) (prevIllegal s (i + 1)) col1 →
      Good revised n col1 (i + 1) → ∀ b t, recurse s = some (b, t) →
      Post revised n (i + 1) col1 b t) :
    ∀ (count new_pos : Nat) (s : State), new_pos + count = n →
      prevBoard s i = pb → prevIllegal s i = pl →
      ∀ b t, try_columns revised n i recurse count new_pos s = some (b, t) →
        (b = true → ∃ col', Inv revised n n (prevBoard t n) (prevIllegal t n) col'
          ∧ Good revised n col' n ∧ ∀ r, r < i → col' r = col r)
        ∧ (b = false → revised = false → ∀ sol, Sol n sol → (∀ r, r < i → sol r = col r) →
            sol i < new_pos) := by
  intro count
  induction count with
  | zero =>
    intro new_pos s hcnt _ _ b t h
    rw [try_columns_zero] at h
    cases h
    refine ⟨fun hb => Bool.noConfusion hb, fun _ _ sol hsol _ => ?_⟩
    have := hsol.1 i hi
    omega
  | succ k ih =>
    intro new_pos s hcnt hpb hpl b t h
    have hc : new_pos < n := by omega
    have hc64 : new_pos < 64 := by omega
    by_cases hl : i = 0 ∨ is_legal (s.illegal (i - 1)) i n (shl64 1 new_pos) = true
    · have hbit : (pl i).testBit new_pos = false := by
        rw [← hpl]; exact (legal_iff_prev s i n new_pos hc64).mp hl
      obtain ⟨b0, hb0, l0, hl0, hpb1, hpl1⟩ := place_prevBoard revised n i new_pos s hc64
      have hinv1 : Inv revised n (i + 1) (prevBoard (place revised n i new_pos s) (i + 1))
          (prevIllegal (place revised n i new_pos s) (i + 1)) (store col i new_pos) := by
        rw [hpb1, hpl1]
        exact place_inv revised n i new_pos pb pl b0 l0 col hinv hi hc hn
          (fun r hr => by rw [hb0 r hr, hpb]) (fun r hr => by rw [hl0 r hr, hpl])
      have hgood1 := good_extend revised n i new_pos pb pl col hinv hgood hi hc hbit
      cases hr : recurse (place revised n i new_pos s) with
      | none => rw [try_columns_take_none _ _ _ _ _ _ _ hl hr] at h; cases h
      | some res =>
        obtain ⟨b1, s1⟩ := res
        have hpost := hrec _ _ hinv1 hgood1 b1 s1 hr
        cases b1 with
        | true =>
          rw [try_columns_take_true _ _ _ _ _ _ _ _ hl hr] at h
          cases h
          refine ⟨fun _ => ?_, fun hb => by cases hb⟩
          obtain ⟨col', h1, h2, h3⟩ := hpost.1 rfl
          refine ⟨col', h1, h2, fun r hr' => ?_⟩
          rw [h3 r (by omega), store_apply, if_neg (by omega)]
        | false =>
          rw [try_columns_take_false _ _ _ _ _ _ _ _ hl hr] at h
          have hfr := hframe _ _ hr
          have hpb2 : prevBoard s1 i = pb := by
            rw [← hpb]
            funext r
            unfold prevBoard
            by_cases hi0 : i = 0
            · simp [hi0]
            · simp only [hi0, if_false]
              rw [(hfr (i - 1) (by omega)).1, place_board_ne _ _ _ _ _ _ (by omega)]
          have hpl2 : prevIllegal s1 i = pl := by
            rw [← hpl]
            funext r
            unfold prevIllegal
            by_cases hi0 : i = 0
            · simp [hi0]
            · simp only [hi0, if_false]
              rw [(hfr (i - 1) (by omega)).2, place_illegal_ne _ _ _ _ _ _ (by omega)]
          have hih := ih (new_pos + 1) s1 (by omega) hpb2 hpl2 b t h
          refine ⟨hih.1, fun hb hrev sol hsol hext => ?_⟩
          have hlt := hih.2 hb hrev sol hsol hext
          have hne : sol i ≠ new_pos := by
            intro heq
            apply hpost.2 rfl hrev sol hsol
            intro r hr'
            rw [store_apply]
            split
            · rename_i hri; rw [hri, heq]
            · exact hext r (by omega)
          omega
    · rw [try_columns_skip _ _ _ _ _ _ _ hl] at h
      have hih := ih (new_pos + 1) s (by omega) hpb hpl b t h
      refine ⟨hih.1, fun hb hrev sol hsol hext => ?_⟩
      have hlt := hih.2 hb hrev sol hsol hext
      have hne : sol i ≠ new_pos := by
        intro heq
        have hbit : (pl i).testBit new_pos = true := by
          rw [← hpl]
          have := (legal_iff_prev s i n new_pos hc64).not.mp hl
          simpa using this
        obtain ⟨j, hj, hatt⟩ := hinv.exact hrev i (Nat.le_refl _) hi new_pos hc hbit
        apply hsol.2 j i hj hi
        rw [hext j hj, heq]
        exact hatt
      omega

/-- Specification of `queens_recurse` at depth `i`, started from a snapshot that records the
queens `col` of rows `0..i-1`. -/
theorem queens_recurse_fuel_spec (revised : Bool) (n : Nat) (hn : n ≤ 64) :
    ∀ (fuel i : Nat) (s : State) (col : Nat → Nat), i + fuel = n →
      Inv revised n i (prevBoard s i) (prevIllegal s i) col → Good revised n col i →
      ∀ b t, queens_recurse_fuel revised n fuel i s = some (b, t) → Post revised n i col b t := by
  intro fuel
  induction fuel with
  | zero =>
    intro i s col hfuel hinv hgood b t h
    have hin : i = n := by omega
    subst hin
    rw [qrf_done] at h
    cases h
    exact ⟨fun _ => ⟨col, hinv, hgood, fun _ _ => rfl⟩, fun hb => by cases hb⟩
  | succ f ih =>
    intro i s col hfuel hinv hgood b t h
    have hin : i ≠ n := by omega
    rw [qrf_succ _ _ _ _ _ hin] at h
    have hspec := try_columns_spec revised n i hn (by omega) _ _ col hinv hgood
      (queens_recurse_fuel revised n f (i + 1))
      (fun s' r' hr' d hd => queens_recurse_fuel_frame revised n f (i + 1) s' r' hr' d (by omega))
      (fun s' col1 hinv1 hgood1 b' t' hr' => ih (i + 1) s' col1 (by omega) hinv1 hgood1 b' t' hr')
      n 0 s (by omega) rfl rfl b t h
    refine ⟨hspec.1, fun hb hrev sol hsol hext => ?_⟩
    have := hspec.2 hb hrev sol hsol hext
    omega

/-! ## Printing -/

theorem string_join_cons (a : String) (l : List String) :
    String.join (a :: l) = a ++ String.join l := by
  apply String.ext
  simp

theorem forUp_append (g : Nat → String) :
    ∀ (count start : Nat) (out : String),
      forUp (fun i o => o ++ g i) count start out
        = out ++ String.join ((List.range' start count).map g) := by
  intro count
  induction count with
  | zero =>
    intro start out
    simp [forUp, String.join]
  | succ k ih =>
    intro start out
    rw [forUp_succ, ih, List.range'_succ, List.map_cons, string_join_cons, String.append_assoc]

theorem and_one_ne_zero_iff (x : Nat) : x &&& 1 ≠ 0 ↔ x.testBit 0 = true := by
  rw [Nat.and_one_is_mod, Nat.testBit_zero]
  simp only [decide_eq_true_eq]
  omega

theorem print_bits_loop (count : Nat) :
    ∀ (start x : Nat) (out : String),
      forUp (fun _ (st : Nat × String) =>
          (shr64 st.1 1, st.2.push (if st.1 &&& 1 ≠ 0 then 'o' else '.'))) count start (x, out)
        = (x >>> count,
            String.mk (out.data
              ++ (List.range count).map (fun c => if x.testBit c then 'o' else '.'))) := by
  induction count with
  | zero =>
    intro start x out
    simp [forUp]
  | succ k ih =>
    intro start x out
    rw [forUp_succ, ih]
    unfold shr64
    apply Prod.ext
    · show x >>> 1 >>> k = x >>> (k + 1)
      rw [← Nat.shiftRight_add, Nat.add_comm]
    · show String.mk _ = String.mk _
      congr 1
      rw [String.data_push, List.range_succ_eq_map, List.map_cons, List.map_map,
        List.append_assoc]
      congr 1
      simp only [List.singleton_append]
      congr 1
      · by_cases h : x &&& 1 ≠ 0
        · rw [if_pos h, if_pos ((and_one_ne_zero_iff x).mp h)]
        · rw [if_neg h, if_neg (fun hb => h ((and_one_ne_zero_iff x).mpr hb))]
      · apply List.map_congr_left
        intro c _
        simp only [Function.comp, Nat.testBit_shiftRight]
        rw [Nat.add_comm]

theorem print_bits_eq (x n : Nat) : print_bits x n = grid_line x n := by
  unfold print_bits grid_line
  rw [print_bits_loop]
  simp

theorem print_bitarray_eq (X : Nat → Nat) (n : Nat) :
    print_bitarray X n = String.join ((List.range n).map (fun r => grid_line (X r) n ++ "\n")) := by
  unfold print_bitarray
  have h : (fun i out => (out ++ print_bits (X i) n) ++ "\n")
      = (fun i (o : String) => o ++ (fun r => grid_line (X r) n ++ "\n") i) := by
    funext i out
    rw [print_bits_eq, String.append_assoc]
  rw [h, forUp_append, String.empty_append, List.range_eq_range']

theorem grid_line_length (x n : Nat) : (grid_line x n).length = n := by
  simp [grid_line, String.length]

theorem grid_line_get (x n c : Nat) (hc : c < n) :
    (grid_line x n).data.get? c = some (if x.testBit c then 'o' else '.') := by
  simp [grid_line, List.getElem?_range hc, hc]

theorem grid_line_two_pow (n k : Nat) (hk : k < n) :
    grid_line (2 ^ k) n
      = String.mk (List.replicate k '.' ++ 'o' :: List.replicate (n - k - 1) '.') := by
  unfold grid_line
  congr 1
  apply List.ext_getElem
  · simp; omega
  · intro c h1 h2
    simp only [List.length_map, List.length_range] at h1
    simp only [List.getElem_map, List.getElem_range, Nat.testBit_two_pow]
    by_cases hck : c < k
    · rw [List.getElem_append_left (by simpa using hck), List.getElem_replicate,
        decide_eq_false (show ¬ k = c by omega)]
      simp only [Bool.false_eq_true, if_false]
    · rw [List.getElem_append_right (by simpa using hck)]
      simp only [List.length_replicate]
      by_cases hck2 : c = k
      · subst hck2
        simp only [Nat.sub_self, List.getElem_cons_zero, decide_True, if_true]
      · obtain ⟨m, hm⟩ : ∃ m, c - k = m + 1 := ⟨c - k - 1, by omega⟩
        simp only [hm, List.getElem_cons_succ, List.getElem_replicate,
          decide_eq_false (show ¬ k = c by omega), Bool.false_eq_true, if_false]

/-! ## Soundness and completeness -/

theorem safe_iff_noShared (n : Nat) (col : Nat → Nat) :
    Safe col n ↔ NoSharedColumnOrDiagonal n col := by
  unfold Safe NoSharedColumnOrDiagonal attacks
  constructor
  · intro h i j hi hj hij
    rcases Nat.lt_or_gt_of_ne hij with hlt | hgt
    · have := h i j hlt hj
      constructor
      · omega
      · rcases abs_cases ((i : Int) - (j : Int)) with ⟨h1, _⟩ | ⟨h1, _⟩ <;>
          rcases abs_cases ((col i : Int) - (col j : Int)) with ⟨h2, _⟩ | ⟨h2, _⟩ <;>
          rw [h1, h2] <;> omega
    · have := h j i hgt hi
      constructor
      · omega
      · rcases abs_cases ((i : Int) - (j : Int)) with ⟨h1, _⟩ | ⟨h1, _⟩ <;>
          rcases abs_cases ((col i : Int) - (col j : Int)) with ⟨h2, _⟩ | ⟨h2, _⟩ <;>
          rw [h1, h2] <;> omega
  · intro h a b hab hb hatt
    obtain ⟨h1, h2⟩ := h a b (by omega) hb (by omega)
    rcases abs_cases ((a : Int) - (b : Int)) with ⟨h3, _⟩ | ⟨h3, _⟩ <;>
      rcases abs_cases ((col a : Int) - (col b : Int)) with ⟨h4, _⟩ | ⟨h4, _⟩ <;>
      rw [h3, h4] at h2 <;> omega

theorem noMid_iff (n : Nat) (col : Nat → Nat) : NoMid col n ↔ NoEqualSpacedInLine n col := by
  unfold NoMid NoEqualSpacedInLine
  constructor
  · intro h i j k hij hjk hk heq
    have hkeq : k = j + (j - i) := by omega
    have := h i j hij (by omega)
    rw [← hkeq] at this
    omega
  · intro h a b hab hlt
    have := h a b (b + (b - a)) hab (by omega) hlt (by omega)
    omega

theorem oneQueen_of_eq (n : Nat) (b col : Nat → Nat)
    (h : ∀ r, r < n → col r < n ∧ b r = 2 ^ col r) : OneQueenPerRow n b col := by
  intro r hr
  obtain ⟨h1, h2⟩ := h r hr
  refine ⟨h1, h2, fun k => ?_⟩
  rw [h2, Nat.testBit_two_pow, decide_eq_true_eq]
  exact eq_comm

/-- Soundness of the search from any initial arrays: on success the snapshot `board[n-1]`
holds one queen per row, and the queens satisfy what the marks enforce. -/
theorem search_sound (revised : Bool) (n : Nat) (h1 : 1 ≤ n) (h64 : n ≤ 64) (s0 s : State)
    (h : queens_recurse revised n 0 s0 = some (true, s)) :
    ∃ col, OneQueenPerRow n (s.board (n - 1)) col ∧ Safe col n
      ∧ (revised = true → n ≤ 32 → NoMid col n) := by
  have hinv0 : Inv revised n 0 (prevBoard s0 0) (prevIllegal s0 0) (fun _ => 0) :=
    inv_zero revised n _
  have hgood0 : Good revised n (fun _ => 0) 0 :=
    ⟨fun a b _ hb => absurd hb (Nat.not_lt_zero b), fun _ _ a b _ hb => by omega⟩
  have hpost := queens_recurse_fuel_spec revised n h64 (n - 0) 0 s0 (fun _ => 0) (by omega)
    hinv0 hgood0 true s h
  obtain ⟨col, hinv, hgood, _⟩ := hpost.1 rfl
  refine ⟨col, ?_, hgood.1, hgood.2⟩
  apply oneQueen_of_eq
  intro r hr
  refine ⟨hinv.col_lt r hr, ?_⟩
  have := hinv.board_eq r hr
  unfold prevBoard at this
  rw [if_neg (by omega)] at this
  exact this

/-- Completeness of the classical search from any initial arrays. -/
theorem search_complete (n : Nat) (h64 : n ≤ 64) (s0 : State) (sol : Nat → Nat)
    (hsol : Sol n sol) : ∃ s, queens_recurse false n 0 s0 = some (true, s) := by
  obtain ⟨⟨b, t⟩, hr⟩ := queens_recurse_total false n 0 s0 (Nat.zero_le n)
  cases b with
  | true => exact ⟨t, hr⟩
  | false =>
    exfalso
    have hinv0 : Inv false n 0 (prevBoard s0 0) (prevIllegal s0 0) (fun _ => 0) :=
      inv_zero false n _
    have hgood0 : Good false n (fun _ => 0) 0 :=
      ⟨fun a b _ hb => absurd hb (Nat.not_lt_zero b), fun h => Bool.noConfusion h⟩
    have hpost := queens_recurse_fuel_spec false n h64 (n - 0) 0 s0 (fun _ => 0) (by omega)
      hinv0 hgood0 false t hr
    exact hpost.2 rfl rfl sol hsol (fun r hr0 => absurd hr0 (Nat.not_lt_zero r))

theorem of_map_fst (o : Option (Bool × State)) (b : Bool) (h : o.map Prod.fst = some b) :
    ∃ s, o = some (b, s) := by
  cases o with
  | none => cases h
  | some p =>
    obtain ⟨b', s⟩ := p
    simp only [Option.map_some', Option.some.injEq] at h
    subst h
    exact ⟨s, rfl⟩

theorem of_observe (n : Nat) (o : Option (Bool × State)) (b : Bool) (l : List Nat)
    (h : observe n o = some (b, l)) :
    ∃ s, o = some (b, s) ∧ (List.range n).map (fun r => s.board (n - 1) r) = l := by
  cases o with
  | none => cases h
  | some p =>
    obtain ⟨b', s⟩ := p
    simp only [observe, Option.some.injEq, Prod.mk.injEq] at h
    obtain ⟨hb, hl⟩ := h
    subst hb
    exact ⟨s, rfl, hl⟩

/-! ## Main results -/

theorem classicalSuccess_of_eval (n : Nat) (h1 : 1 ≤ n) (h64 : n ≤ 64)
    (h : (queens_recurse false n 0 zeroState).map Prod.fst = some true) :
    ClassicalSuccess n := by
  obtain ⟨s, hs⟩ := of_map_fst _ _ h
  obtain ⟨col, hc1, hc2, _⟩ := search_sound false n h1 h64 zeroState s hs
  exact ⟨s, hs, col, hc1, (safe_iff_noShared n col).mp hc2⟩

set_option maxRecDepth 100000 in
theorem eval_success_4 (revised : Bool) :
    observe 4 (queens_recurse revised 4 0 zeroState) = some (true, [2, 8, 1, 4]) := by
  cases revised <;> decide!

set_option maxRecDepth 100000 in
theorem eval_classical_1 : (queens_recurse false 1 0 zeroState).map Prod.fst = some true := by
  decide!

set_option maxRecDepth 100000 in
theorem eval_classical_5 : (queens_recurse false 5 0 zeroState).map Prod.fst = some true := by
  decide!

set_option maxRecDepth 100000 in
theorem eval_classical_6 : (queens_recurse false 6 0 zeroState).map Prod.fst = some true := by
  decide!

set_option maxRecDepth 100000 in
theorem eval_classical_8 : (queens_recurse false 8 0 zeroState).map Prod.fst = some true := by
  decide!

set_option maxRecDepth 100000 in
theorem eval_revised_9 :
    observe 9 (queens_recurse true 9 0 zeroState)
      = some (true, [1, 64, 8, 32, 256, 2, 16, 4, 128]) := by
  decide!

/-- C1. For 1 ≤ n ≤ 64 and either setting of the revised rule: if `queens_recurse` at depth 0
on zeroed arrays reports success, the snapshot `board[n-1]` has exactly one bit set in every
row, at a column below `n`; the columns are pairwise distinct and no two queens share a
diagonal. -/
theorem C1_success_satisfies_classical_constraints (revised : Bool) (n : Nat) (h1 : 1 ≤ n)
    (h64 : n ≤ 64) (s : State) (h : queens_recurse revised n 0 zeroState = some (true, s)) :
    ∃ col, OneQueenPerRow n (s.board (n - 1)) col ∧ NoSharedColumnOrDiagonal n col := by
  obtain ⟨col, hc1, hc2, _⟩ := search_sound revised n h1 h64 zeroState s h
  exact ⟨col, hc1, (safe_iff_noShared n col).mp hc2⟩

/-- Instance of C1 at n = 4 with the revised rule on. -/
theorem C1_witness :
    ∃ s, queens_recurse true 4 0 zeroState = some (true, s)
      ∧ ∃ col, OneQueenPerRow 4 (s.board (4 - 1)) col ∧ NoSharedColumnOrDiagonal 4 col := by
  obtain ⟨s, hs, _⟩ := of_observe _ _ _ _ (eval_success_4 true)
  exact ⟨s, hs, C1_success_satisfies_classical_constraints true 4 (by decide) (by decide) s hs⟩

/-- C2 (evaluation at the failing input). With the revised rule on, the search for n = 9
succeeds with the queens at columns 0 6 3 5 8 1 4 2 7, and the queens of rows 4, 6 and 7
(columns 8, 4 and 2) lie on one straight line, so the placement is not free of three queens
in line. -/
theorem C2_revised_nine_has_three_in_line :
    ∃ s, queens_recurse true 9 0 zeroState = some (true, s)
      ∧ (List.range 9).map (fun r => s.board 8 r)
          = [0, 6, 3, 5, 8, 1, 4, 2, 7].map (fun c => 2 ^ c)
      ∧ ¬ NoThreeInLine 9 (fun r => [0, 6, 3, 5, 8, 1, 4, 2, 7].getD r 0) := by
  obtain ⟨s, hs, hl⟩ := of_observe _ _ _ _ eval_revised_9
  refine ⟨s, hs, ?_, ?_⟩
  · rw [hl]; decide
  · intro h
    exact h 4 6 7 (by decide) (by decide) (by decide) (by decide)

/-- C3. For 1 ≤ n ≤ 32 with the revised rule on: if the search reports success, then for all
rows i < j < k with equal spacing the queens are not collinear: col k - col j differs from
col j - col i. -/
theorem C3_revised_no_equally_spaced_line (n : Nat) (h1 : 1 ≤ n) (h32 : n ≤ 32) (s : State)
    (h : queens_recurse true n 0 zeroState = some (true, s)) :
    ∃ col, OneQueenPerRow n (s.board (n - 1)) col ∧ NoEqualSpacedInLine n col := by
  obtain ⟨col, hc1, _, hc3⟩ := search_sound true n h1 (by omega) zeroState s h
  exact ⟨col, hc1, (noMid_iff n col).mp (hc3 rfl h32)⟩

/-- Instance of C3 at n = 4. -/
theorem C3_witness :
    ∃ s, queens_recurse true 4 0 zeroState = some (true, s)
      ∧ ∃ col, OneQueenPerRow 4 (s.board (4 - 1)) col ∧ NoEqualSpacedInLine 4 col := by
  obtain ⟨s, hs, _⟩ := of_observe _ _ _ _ (eval_success_4 true)
  exact ⟨s, hs, C3_revised_no_equally_spaced_line 4 (by decide) (by decide) s hs⟩

/-- C4. Completeness of the classical search: with the revised rule off and 1 ≤ n ≤ 64,
whenever a placement of n queens exists with one queen per row, pairwise distinct columns and
no shared diagonal, the search at depth 0 reports success; it never reports failure then. -/
theorem C4_classical_search_complete (n : Nat) (_h1 : 1 ≤ n) (h64 : n ≤ 64) (sol : Nat → Nat)
    (hcol : ∀ r, r < n → sol r < n) (hsafe : NoSharedColumnOrDiagonal n sol) :
    (∃ s, queens_recurse false n 0 zeroState = some (true, s))
      ∧ ∀ s, queens_recurse false n 0 zeroState ≠ some (false, s) := by
  have hsol : Sol n sol := ⟨hcol, (safe_iff_noShared n sol).mpr hsafe⟩
  obtain ⟨s, hs⟩ := search_complete n h64 zeroState sol hsol
  refine ⟨⟨s, hs⟩, fun t ht => ?_⟩
  rw [hs] at ht
  cases ht

/-- Instance of C4 at n = 4 with the placement 1 3 0 2. -/
theorem C4_witness :
    (∃ s, queens_recurse false 4 0 zeroState = some (true, s))
      ∧ ∀ s, queens_recurse false 4 0 zeroState ≠ some (false, s) :=
  C4_classical_search_complete 4 (by decide) (by decide) (fun r => [1, 3, 0, 2].getD r 0)
    (by decide) (by
      intro i j hi hj hij
      interval_cases i <;> interval_cases j <;> simp at hij ⊢)

/-- C5. For n = 2 and n = 3 the search reports no solution (`queens_recurse` at depth 0
returns 0), with the revised rule off and with it on. -/
theorem C5_no_solution_for_two_and_three :
    (queens_recurse false 2 0 zeroState).map Prod.fst = some false
      ∧ (queens_recurse false 3 0 zeroState).map Prod.fst = some false
      ∧ (queens_recurse true 2 0 zeroState).map Prod.fst = some false
      ∧ (queens_recurse true 3 0 zeroState).map Prod.fst = some false := by
  refine ⟨?_, ?_, ?_, ?_⟩ <;> decide!

/-- C6. For every n in 1, 4, 5, 6, 8 the classical search reports success and the returned
board `board[n-1]` has exactly one queen in every row, pairwise distinct columns and no two
queens on a shared diagonal. -/
theorem C6_classical_success_small_boards :
    ClassicalSuccess 1 ∧ ClassicalSuccess 4 ∧ ClassicalSuccess 5 ∧ ClassicalSuccess 6
      ∧ ClassicalSuccess 8 := by
  refine ⟨classicalSuccess_of_eval 1 (by decide) (by decide) eval_classical_1, ?_,
    classicalSuccess_of_eval 5 (by decide) (by decide) eval_classical_5,
    classicalSuccess_of_eval 6 (by decide) (by decide) eval_classical_6,
    classicalSuccess_of_eval 8 (by decide) (by decide) eval_classical_8⟩
  obtain ⟨s, hs, _⟩ := of_observe _ _ _ _ (eval_success_4 false)
  obtain ⟨col, hc1, hc2, _⟩ := search_sound false 4 (by decide) (by decide) zeroState s hs
  exact ⟨s, hs, col, hc1, (safe_iff_noShared 4 col).mp hc2⟩

/-- C7. For n = 4 the search succeeds, in either rule configuration, and the queen columns
of rows 0..3 in `board[3]` are 1 3 0 2 or the mirror 2 0 3 1 (the search returns the
former). -/
theorem C7_four_queens_answer (revised : Bool) :
    ∃ s, queens_recurse revised 4 0 zeroState = some (true, s)
      ∧ ((List.range 4).map (fun r => s.board 3 r) = [1, 3, 0, 2].map (fun c => 2 ^ c)
        ∨ (List.range 4).map (fun r => s.board 3 r) = [2, 0, 3, 1].map (fun c => 2 ^ c)) := by
  obtain ⟨s, hs, hl⟩ := of_observe _ _ _ _ (eval_success_4 revised)
  refine ⟨s, hs, Or.inl ?_⟩
  rw [hl]; decide

/-- C8 (counterexample). For n = 1 the search succeeds with the queen at bit 0 of row 0, and
`print_result` writes the column as 1, not as the 0-based index 0. -/
theorem C8_print_result_not_zero_based :
    ∃ s, queens_recurse false 1 0 zeroState = some (true, s) ∧ s.board 0 0 = 2 ^ 0
      ∧ print_result (s.board 0) 1 = "1\n1 \n"
      ∧ print_result (s.board 0) 1 ≠ spec_print_result (fun _ => 0) 1 := by
  obtain ⟨s, hs⟩ := of_map_fst _ _ eval_classical_1
  obtain ⟨col, hc1, _⟩ := search_sound false 1 (by decide) (by decide) zeroState s hs
  obtain ⟨hlt, hb, _⟩ := hc1 0 (by decide)
  have hcol : col 0 = 0 := by omega
  rw [hcol] at hb
  have hb' : s.board 0 0 = 2 ^ 0 := hb
  have hpr : print_result (s.board 0) 1 = "1\n1 \n" := by
    simp only [print_result, forUp, hb']
    decide
  refine ⟨s, hs, hb', hpr, ?_⟩
  rw [hpr]
  decide

/-- On single-bit rows with the bit below position 32, `print_result` lists one plus the bit
position of every row. -/
theorem print_result_of_single_bits (X col : Nat → Nat) (n : Nat)
    (h : ∀ r, r < n → col r < 32 ∧ X r = 2 ^ col r) :
    print_result X n
      = toString n ++ "\n"
          ++ String.join ((List.range n).map (fun r => toString (col r + 1) ++ " ")) ++ "\n" := by
  unfold print_result
  simp only []
  rw [forUp_append (fun i => toString (findfirstset (X i)) ++ " "), List.range_eq_range']
  congr 3
  apply List.map_congr_left
  intro r hr
  rw [List.mem_range'_1] at hr
  obtain ⟨h1, h2⟩ := h r (by omega)
  rw [h2, findfirstset_two_pow _ h1]

/-- C8 (amended). On success, for 1 ≤ n ≤ 64, with `col r` the position of the set bit of
row `r` of `board[n-1]`: if all queens stand in columns below 32, `print_result` writes `n`
on its own line, then for each row 0..n-1 in order the 1-based column `col r + 1` followed by
a space, then a newline. -/
theorem C8_print_result_one_based (revised : Bool) (n : Nat) (h1 : 1 ≤ n) (h64 : n ≤ 64)
    (s : State) (h : queens_recurse revised n 0 zeroState = some (true, s)) :
    ∃ col, OneQueenPerRow n (s.board (n - 1)) col
      ∧ ((∀ r, r < n → col r < 32) →
          print_result (s.board (n - 1)) n
            = toString n ++ "\n"
                ++ String.join ((List.range n).map (fun r => toString (col r + 1) ++ " "))
                ++ "\n") := by
  obtain ⟨col, hc1, _⟩ := search_sound revised n h1 h64 zeroState s h
  exact ⟨col, hc1, fun h32 =>
    print_result_of_single_bits _ col n (fun r hr => ⟨h32 r hr, (hc1 r hr).2.1⟩)⟩

/-- Instance of C8 (amended) at n = 4: the result block lists the columns 1-based. -/
theorem C8_witness :
    ∃ s, queens_recurse true 4 0 zeroState = some (true, s)
      ∧ ∃ col, OneQueenPerRow 4 (s.board (4 - 1)) col
        ∧ print_result (s.board (4 - 1)) 4
            = toString 4 ++ "\n"
                ++ String.join ((List.range 4).map (fun r => toString (col r + 1) ++ " "))
                ++ "\n" := by
  obtain ⟨s, hs, _⟩ := of_observe _ _ _ _ (eval_success_4 true)
  obtain ⟨col, hc1, hc2⟩ :=
    C8_print_result_one_based true 4 (by decide) (by decide) s hs
  exact ⟨s, hs, col, hc1, hc2 (fun r hr => by have := (hc1 r hr).1; omega)⟩

/-- C9. `print_bitarray(X, n)` writes exactly `n` lines of exactly `n` characters each, the
character at position `c` of line `r` being `o` if bit `c` of `X[r]` is set and `.`
otherwise; a row holding a single queen gives a line with exactly one `o`, at the queen's
column, and so does every row of a successful board. -/
theorem C9_print_bitarray_grid (X : Nat → Nat) (n : Nat) :
    print_bitarray X n = String.join ((List.range n).map (fun r => grid_line (X r) n ++ "\n"))
      ∧ (∀ r, (grid_line (X r) n).length = n
          ∧ ∀ c, c < n →
              (grid_line (X r) n).data[c]? = some (if (X r).testBit c then 'o' else '.'))
      ∧ (∀ r k, k < n → X r = 2 ^ k →
          grid_line (X r) n
            = String.mk (List.replicate k '.' ++ 'o' :: List.replicate (n - k - 1) '.'))
      ∧ (∀ revised s, 1 ≤ n → n ≤ 64 → queens_recurse revised n 0 zeroState = some (true, s) →
          ∃ col : Nat → Nat, ∀ r, r < n → col r < n ∧ grid_line (s.board (n - 1) r) n
            = String.mk (List.replicate (col r) '.'
                ++ 'o' :: List.replicate (n - col r - 1) '.')) := by
  refine ⟨print_bitarray_eq X n, fun r => ⟨grid_line_length _ _, fun c hc => ?_⟩,
    fun r k hk hX => ?_, fun revised s h1 h64 hs => ?_⟩
  · have := grid_line_get (X r) n c hc
    simpa using this
  · rw [hX]; exact grid_line_two_pow n k hk
  · obtain ⟨col, hc1, _⟩ := search_sound revised n h1 h64 zeroState s hs
    refine ⟨col, fun r hr => ?_⟩
    obtain ⟨hlt, hb, _⟩ := hc1 r hr
    exact ⟨hlt, by rw [hb]; exact grid_line_two_pow n (col r) hlt⟩

/-- C10. For every argument vector with `argc != 2`, `main` writes exactly the line
`Usage: queens-revised n`, returns exit status 1 and starts no search; with `argc == 2` the
exit status is never 1. -/
theorem C10_usage_error (revised : Bool) (atoi : String → Int) (argv : List String) :
    (argv.length ≠ 2 →
        main revised atoi argv
          = { stdout := "Usage: queens-revised n\n", status := Status.exited 1,
              searched := false })
      ∧ (argv.length = 2 → (main revised atoi argv).status ≠ Status.exited 1) := by
  constructor
  · intro h
    simp only [main, if_neg h]
  · intro h
    simp only [main, if_pos h]
    cases (queens_revised revised (atoi (argv.getD 1 ""))).completion <;> simp

/-- Instance of C9 for the board with queens at columns 1 3 0 2. -/
theorem C9_witness :
    print_bitarray (fun r => 2 ^ [1, 3, 0, 2].getD r 0) 4 = ".o..\n...o\no...\n..o.\n" :=
  (C9_print_bitarray_grid (fun r => 2 ^ [1, 3, 0, 2].getD r 0) 4).1.trans (by decide!)

/-- Instance of C10 for an argument vector that holds the program name only. -/
theorem C10_witness :
    main true (fun _ => 0) ["queens-revised"]
      = { stdout := "Usage: queens-revised n\n", status := Status.exited 1, searched := false } :=
  (C10_usage_error true (fun _ => 0) ["queens-revised"]).1 (by decide)

/-! ## Invariants of the reached states -/

theorem place_board_self (revised : Bool) (n i c : Nat) (s : State) :
    (place revised n i c s).board i
      = store (if i > 0 then copy (s.board i) (s.board (i - 1)) n else zero (s.board i) n) i
          (shl64 1 c) := by
  simp [place]

theorem place_illegal_self (revised : Bool) (n i c : Nat) (s : State) :
    (place revised n i c s).illegal i
      = set_illegal revised
          (store (if i > 0 then copy (s.board i) (s.board (i - 1)) n else zero (s.board i) n) i
            (shl64 1 c))
          (if i > 0 then copy (s.illegal i) (s.illegal (i - 1)) n else zero (s.illegal i) n)
          i n (shl64 1 c) c := by
  simp [place]

/-- A call at depth `i + 1` that follows a commit at depth `i` leaves the snapshot that depth
`i` started from as it was. -/
theorem prev_after_call (revised : Bool) (n i c : Nat) (s : State) (r : Bool × State)
    (h : queens_recurse revised n (i + 1) (place revised n i c s) = some r) :
    prevBoard r.2 i = prevBoard s i ∧ prevIllegal r.2 i = prevIllegal s i := by
  have hfr := queens_recurse_fuel_frame revised n _ _ _ _ h
  constructor
  · funext x
    unfold prevBoard
    by_cases hi0 : i = 0
    · simp [hi0]
    · simp only [hi0, if_false]
      rw [(hfr (i - 1) (by omega)).1, place_board_ne _ _ _ _ _ _ (by omega)]
  · funext x
    unfold prevIllegal
    by_cases hi0 : i = 0
    · simp [hi0]
    · simp only [hi0, if_false]
      rw [(hfr (i - 1) (by omega)).2, place_illegal_ne _ _ _ _ _ _ (by omega)]

/-- Every state of the run satisfies the invariant of the search, and the rows of the board
snapshot that are not yet decided are zero. -/
theorem reach_inv (revised : Bool) (n : Nat) (hn : n ≤ 64) (i : Nat) (s : State) (c : Nat)
    (h : Reach revised n i s c) :
    i ≤ n ∧ ∃ col, Inv revised n i (prevBoard s i) (prevIllegal s i) col ∧ Good revised n col i
      ∧ ∀ r, i ≤ r → r < n → prevBoard s i r = 0 := by
  induction h with
  | start =>
    refine ⟨Nat.zero_le n, fun _ => 0, inv_zero revised n _,
      ⟨fun a b _ hb => absurd hb (Nat.not_lt_zero b), fun _ _ a b _ hb => by omega⟩, ?_⟩
    intro r _ _
    simp [prevBoard]
  | skip _ _ _ _ ih => exact ih
  | @enter i s c _ hi hc hl ih =>
    obtain ⟨_, col, hinv, hgood, hzero⟩ := ih
    have hc64 : c < 64 := by omega
    have hbit : (prevIllegal s i i).testBit c = false := (legal_iff_prev s i n c hc64).mp hl
    obtain ⟨b0, hb0, l0, hl0, hpb1, hpl1⟩ := place_prevBoard revised n i c s hc64
    refine ⟨by omega, store col i c, ?_, ?_, ?_⟩
    · rw [hpb1, hpl1]
      exact place_inv revised n i c _ _ b0 l0 col hinv hi hc hn hb0 hl0
    · exact good_extend revised n i c _ _ col hinv hgood hi hc hbit
    · intro r hr hrn
      rw [hpb1, store_apply, if_neg (by omega), hb0 r hrn]
      exact hzero r (by omega) hrn
  | @back i s c s1 _ hi hc hl hret ih =>
    obtain ⟨hle, col, hinv, hgood, hzero⟩ := ih
    obtain ⟨h1, h2⟩ := prev_after_call revised n i c s _ hret
    have h1' : prevBoard s1 i = prevBoard s i := h1
    have h2' : prevIllegal s1 i = prevIllegal s i := h2
    refine ⟨hle, col, ?_, hgood, ?_⟩
    · rw [h1', h2']; exact hinv
    · rw [h1']; exact hzero

/-- What holds right after a commit at depth `i`: the invariant one row further down, for the
snapshot of depth `i` itself. -/
theorem committed_inv (revised : Bool) (n : Nat) (hn : n ≤ 64) (i : Nat) (t : State)
    (h : Committed revised n i t) :
    i < n ∧ ∃ col, Inv revised n (i + 1) (t.board i) (t.illegal i) col
      ∧ Good revised n col (i + 1) ∧ (∀ r, i < r → r < n → t.board i r = 0)
      ∧ ∀ r, r < i → t.board i r = t.board (i - 1) r := by
  obtain ⟨s, c, hreach, hi, hc, hl, ht⟩ := h
  obtain ⟨_, col, hinv, hgood, hzero⟩ :=
    reach_inv revised n hn (i + 1) t 0 (ht ▸ Reach.enter hreach hi hc hl)
  have hb : prevBoard t (i + 1) = t.board i := by funext r; simp [prevBoard]
  have hl' : prevIllegal t (i + 1) = t.illegal i := by funext r; simp [prevIllegal]
  rw [hb, hl'] at hinv
  rw [hb] at hzero
  refine ⟨hi, col, hinv, hgood, fun r hr hrn => hzero r (by omega) hrn, ?_⟩
  intro r hr
  subst ht
  rw [place_board_self, store_apply, if_neg (by omega), place_board_ne _ _ _ _ _ _ (by omega),
    if_pos (by omega), copy_apply, if_pos (by omega)]

theorem attacks_iff_abs (p j r c : Nat) (hjr : j < r) :
    attacks p j r c ↔ (p = c ∨ |(r : Int) - (j : Int)| = |(c : Int) - (p : Int)|) := by
  unfold attacks
  rcases abs_cases ((r : Int) - (j : Int)) with ⟨h1, _⟩ | ⟨h1, _⟩ <;>
    rcases abs_cases ((c : Int) - (p : Int)) with ⟨h2, _⟩ | ⟨h2, _⟩ <;>
    rw [h1, h2] <;> omega

/-- C11. Exactness of the illegal masks under classical rules: right after a queen is
committed at depth i in the run from zeroed arrays, with `col j` the column of the queen of
row j ≤ i, for every row r with i < r < n and every column c < n, bit c of `illegal[i][r]` is
set if and only if some queen of rows 0..i stands in column c or on a diagonal through
(r, c). -/
theorem C11_classical_masks_exact (n : Nat) (_h1 : 1 ≤ n) (h64 : n ≤ 64) (i : Nat) (t : State)
    (h : Committed false n i t) :
    ∃ col : Nat → Nat, (∀ j, j ≤ i → col j < n ∧ t.board i j = 2 ^ col j)
      ∧ ∀ r, i < r → r < n → ∀ c, c < n →
          ((t.illegal i r).testBit c = true
            ↔ ∃ j, j ≤ i
                ∧ (col j = c ∨ |(r : Int) - (j : Int)| = |(c : Int) - (col j : Int)|)) := by
  obtain ⟨_, col, hinv, _, _, _⟩ := committed_inv false n h64 i t h
  refine ⟨col, fun j hj => ⟨hinv.col_lt j (by omega), hinv.board_eq j (by omega)⟩, ?_⟩
  intro r hr hrn c hc
  constructor
  · intro hbit
    obtain ⟨j, hj, hatt⟩ := hinv.exact rfl r (by omega) hrn c hc hbit
    exact ⟨j, by omega, (attacks_iff_abs (col j) j r c (by omega)).mp hatt⟩
  · rintro ⟨j, hj, hatt⟩
    exact hinv.marked j (by omega) r (by omega) hrn c hc
      ((attacks_iff_abs (col j) j r c (by omega)).mpr hatt)

/-- Instance of C11 for the first commit of the run for n = 4. -/
theorem C11_witness :
    ∃ col : Nat → Nat,
      (∀ j, j ≤ 0 → col j < 4 ∧ (place false 4 0 0 zeroState).board 0 j = 2 ^ col j)
      ∧ ∀ r, 0 < r → r < 4 → ∀ c, c < 4 →
          (((place false 4 0 0 zeroState).illegal 0 r).testBit c = true
            ↔ ∃ j, j ≤ 0
                ∧ (col j = c ∨ |(r : Int) - (j : Int)| = |(c : Int) - (col j : Int)|)) :=
  C11_classical_masks_exact 4 (by decide) (by decide) 0 (place false 4 0 0 zeroState)
    ⟨zeroState, 0, Reach.start, by decide, by decide, Or.inl rfl, rfl⟩

/-- C15. Frame property of the recursion: for every n, every depth i ≤ n and every input
state, the call `queens_recurse(board, illegal, n, i)` returns, and whether it returns
success or failure it leaves the snapshots `board[j]` and `illegal[j]` of every depth j < i
unchanged. -/
theorem C15_recursion_frame (revised : Bool) (n i : Nat) (s : State) (hi : i ≤ n) :
    ∃ r, queens_recurse revised n i s = some r
      ∧ ∀ j, j < i → r.2.board j = s.board j ∧ r.2.illegal j = s.illegal j := by
  obtain ⟨r, hr⟩ := queens_recurse_total revised n i s hi
  exact ⟨r, hr, queens_recurse_fuel_frame revised n _ i s r hr⟩

/-- Instance of C15 for a call at depth 2 of the run for n = 4. -/
theorem C15_witness :
    ∃ r, queens_recurse true 4 2 (place true 4 1 3 (place true 4 0 1 zeroState)) = some r
      ∧ ∀ j, j < 2 →
          r.2.board j = (place true 4 1 3 (place true 4 0 1 zeroState)).board j
          ∧ r.2.illegal j = (place true 4 1 3 (place true 4 0 1 zeroState)).illegal j :=
  C15_recursion_frame true 4 2 (place true 4 1 3 (place true 4 0 1 zeroState)) (by decide)

/-- C16. Board snapshot invariant: right after a queen is committed at depth i in the run
from zeroed arrays, each of rows 0..i of `board[i]` has exactly one bit set, at a column
below n; rows 0..i-1 of `board[i]` equal the same rows of `board[i-1]`; and every row r > i
of `board[i]` is zero. -/
theorem C16_board_snapshot (revised : Bool) (n : Nat) (_h1 : 1 ≤ n) (h64 : n ≤ 64) (i : Nat)
    (t : State) (h : Committed revised n i t) :
    (∃ col : Nat → Nat, ∀ r, r ≤ i →
        col r < n ∧ t.board i r = 2 ^ col r ∧ ∀ k, (t.board i r).testBit k = true ↔ k = col r)
      ∧ (∀ r, r < i → t.board i r = t.board (i - 1) r)
      ∧ ∀ r, i < r → r < n → t.board i r = 0 := by
  obtain ⟨_, col, hinv, _, hzero, hprev⟩ := committed_inv revised n h64 i t h
  refine ⟨⟨col, ?_⟩, hprev, hzero⟩
  intro r hr
  have hb := hinv.board_eq r (by omega)
  refine ⟨hinv.col_lt r (by omega), hb, fun k => ?_⟩
  rw [hb, Nat.testBit_two_pow, decide_eq_true_eq]
  exact eq_comm

/-- Instance of C16 for the second commit of the run for n = 4 with the revised rule on. -/
theorem C16_witness :
    (∃ col : Nat → Nat, ∀ r, r ≤ 1 →
        col r < 4 ∧ (place true 4 1 2 (place true 4 0 0 zeroState)).board 1 r = 2 ^ col r
        ∧ ∀ k, ((place true 4 1 2 (place true 4 0 0 zeroState)).board 1 r).testBit k = true
            ↔ k = col r)
      ∧ (∀ r, r < 1 → (place true 4 1 2 (place true 4 0 0 zeroState)).board 1 r
          = (place true 4 1 2 (place true 4 0 0 zeroState)).board (1 - 1) r)
      ∧ ∀ r, 1 < r → r < 4 → (place true 4 1 2 (place true 4 0 0 zeroState)).board 1 r = 0 :=
  C16_board_snapshot true 4 (by decide) (by decide) 1
    (place true 4 1 2 (place true 4 0 0 zeroState))
    ⟨place true 4 0 0 zeroState, 2,
      Reach.skip (Reach.skip (Reach.enter Reach.start (by decide) (by decide) (Or.inl rfl))
        (by decide) (by decide) (by decide!)) (by decide) (by decide) (by decide!),
      by decide, by decide, by decide!, rfl⟩

/-! ## First descents and the result of a successful search -/

/-- Columns that are not legal are skipped one after the other. -/
theorem reach_skips (revised : Bool) (n i : Nat) (s : State) (hi : i < n) :
    ∀ c, c ≤ n → Reach revised n i s 0 → (∀ c1, c1 < c → ¬ legal_at s i n c1) →
      Reach revised n i s c := by
  intro c
  induction c with
  | zero => intro _ h _; exact h
  | succ k ih =>
    intro hk h hall
    exact Reach.skip (ih (by omega) h (fun c1 hc1 => hall c1 (by omega))) hi (by omega)
      (hall k (by omega))

/-- The last commit of a first descent is reached by the run. -/
theorem committed_first_descent (revised : Bool) (n : Nat) :
    ∀ (cols : List Nat) (c i : Nat) (s : State), Reach revised n i s 0 →
      first_descent revised n (cols ++ [c]) i s = true →
      Committed revised n (i + cols.length) (descent revised n (cols ++ [c]) i s) := by
  intro cols
  induction cols with
  | nil =>
    intro c i s hreach hfd
    simp only [List.nil_append, first_descent, Bool.and_eq_true, decide_eq_true_eq,
      List.all_eq_true, List.mem_range, Bool.not_eq_true', decide_eq_false_iff_not,
      and_true] at hfd
    obtain ⟨⟨⟨hi, hc⟩, hl⟩, hall⟩ := hfd
    exact ⟨s, c, reach_skips revised n i s hi c (by omega) hreach hall, hi, hc, hl, rfl⟩
  | cons c0 cs ih =>
    intro c i s hreach hfd
    simp only [List.cons_append, first_descent, Bool.and_eq_true, decide_eq_true_eq,
      List.all_eq_true, List.mem_range, Bool.not_eq_true', decide_eq_false_iff_not] at hfd
    obtain ⟨⟨⟨⟨hi, hc⟩, hl⟩, hall⟩, hrest⟩ := hfd
    have hreach1 : Reach revised n (i + 1) (place revised n i c0 s) 0 :=
      Reach.enter (reach_skips revised n i s hi c0 (by omega) hreach hall) hi hc hl
    have := ih c (i + 1) (place revised n i c0 s) hreach1 hrest
    simp only [List.length_cons, List.cons_append, descent]
    rw [show i + (cs.length + 1) = i + 1 + cs.length by omega]
    exact this

/-- When the loop at depth `i` reports success, the arrays it returns are those of a commit
at depth `n - 1` that the run reaches. -/
theorem try_columns_success_committed (revised : Bool) (n i : Nat) (hi : i < n)
    (recurse : State → Option (Bool × State))
    (hrecurse : ∀ s, recurse s = queens_recurse revised n (i + 1) s)
    (hrec : ∀ s t, Reach revised n (i + 1) s 0 → i + 1 < n → recurse s = some (true, t) →
      Committed revised n (n - 1) t)
    (hdone : ∀ s t, i + 1 = n → recurse s = some (true, t) → t = s) :
    ∀ (count c : Nat) (s t : State), c + count = n → Reach revised n i s c →
      try_columns revised n i recurse count c s = some (true, t) →
      Committed revised n (n - 1) t := by
  intro count
  induction count with
  | zero =>
    intro c s t _ _ h
    rw [try_columns_zero] at h
    cases h
  | succ k ih =>
    intro c s t hcnt hreach h
    have hc : c < n := by omega
    by_cases hl : i = 0 ∨ is_legal (s.illegal (i - 1)) i n (shl64 1 c) = true
    · cases hr : recurse (place revised n i c s) with
      | none => rw [try_columns_take_none _ _ _ _ _ _ _ hl hr] at h; cases h
      | some res =>
        obtain ⟨b1, s1⟩ := res
        cases b1 with
        | true =>
          rw [try_columns_take_true _ _ _ _ _ _ _ _ hl hr] at h
          cases h
          by_cases hlast : i + 1 = n
          · have := hdone _ _ hlast hr
            subst this
            have hi' : i = n - 1 := by omega
            rw [← hi']
            exact ⟨s, c, hreach, hi, hc, hl, rfl⟩
          · exact hrec _ _ (Reach.enter hreach hi hc hl) (by omega) hr
        | false =>
          rw [try_columns_take_false _ _ _ _ _ _ _ _ hl hr] at h
          rw [hrecurse] at hr
          exact ih (c + 1) s1 t (by omega) (Reach.back hreach hi hc hl hr) h
    · rw [try_columns_skip _ _ _ _ _ _ _ hl] at h
      exact ih (c + 1) s t (by omega) (Reach.skip hreach hi hc hl) h

theorem queens_recurse_fuel_success_committed (revised : Bool) (n : Nat) :
    ∀ (fuel i : Nat) (s t : State), i + fuel = n → i < n → Reach revised n i s 0 →
      queens_recurse_fuel revised n fuel i s = some (true, t) →
      Committed revised n (n - 1) t := by
  intro fuel
  induction fuel with
  | zero => intro i s t h1 h2; omega
  | succ f ih =>
    intro i s t hfuel hi hreach h
    rw [qrf_succ _ _ _ _ _ (by omega)] at h
    refine try_columns_success_committed revised n i hi _ ?_ ?_ ?_ n 0 s t (by omega) hreach h
    · intro s'
      unfold queens_recurse
      rw [show n - (i + 1) = f by omega]
    · intro s' t' hreach' hlt hr
      exact ih (i + 1) s' t' (by omega) hlt hreach' hr
    · intro s' t' hlast hr
      rw [hlast, qrf_done] at hr
      cases hr
      rfl

/-- The arrays of a successful search are those of a commit at depth `n - 1` that the run
reaches. -/
theorem success_committed (revised : Bool) (n : Nat) (h1 : 1 ≤ n) (t : State)
    (h : queens_recurse revised n 0 zeroState = some (true, t)) :
    Committed revised n (n - 1) t :=
  queens_recurse_fuel_success_committed revised n (n - 0) 0 zeroState t (by omega) (by omega)
    Reach.start h

set_option maxRecDepth 100000 in
theorem eval_descent_12 :
    first_descent true 12 ([0, 2, 5, 1, 6] ++ [4]) 0 zeroState = true
      ∧ (descent true 12 ([0, 2, 5, 1, 6] ++ [4]) 0 zeroState).board 5 1 = 2 ^ 2
      ∧ (descent true 12 ([0, 2, 5, 1, 6] ++ [4]) 0 zeroState).board 5 5 = 2 ^ 4
      ∧ ((descent true 12 ([0, 2, 5, 1, 6] ++ [4]) 0 zeroState).illegal 5 11).testBit 7
          = false := by
  decide!

set_option maxRecDepth 100000 in
theorem eval_descent_34 :
    first_descent true 34
        ([0, 2, 5, 1, 6, 4, 10, 12, 15, 17, 3, 7, 9, 19, 8, 24, 11, 27, 29] ++ [33]) 0
        zeroState = true
      ∧ (descent true 34
          ([0, 2, 5, 1, 6, 4, 10, 12, 15, 17, 3, 7, 9, 19, 8, 24, 11, 27, 29] ++ [33]) 0
          zeroState).board 19 0 = 2 ^ 0
      ∧ (descent true 34
          ([0, 2, 5, 1, 6, 4, 10, 12, 15, 17, 3, 7, 9, 19, 8, 24, 11, 27, 29] ++ [33]) 0
          zeroState).board 19 19 = 2 ^ 33
      ∧ col_diff (descent true 34
          ([0, 2, 5, 1, 6, 4, 10, 12, 15, 17, 3, 7, 9, 19, 8, 24, 11, 27, 29] ++ [33]) 0
          zeroState |>.board 19) 0 19 = 1 := by
  decide!

set_option maxRecDepth 100000 in
theorem eval_descent_4 :
    first_descent true 4 ([0] ++ [2]) 0 zeroState = true
      ∧ ((descent true 4 ([0] ++ [2]) 0 zeroState).illegal 1 2).testBit 4 = true := by
  decide!

/-- C12 (evaluation at the failing input). In the run for n = 12 with the revised rule on,
the first descent commits queens at columns 0 2 5 1 6 4 of rows 0..5.  After `set_illegal`
has run for the queen of row 5, the square (11, 7) lies on the line through the queens of
rows 1 and 5 (columns 2 and 4), yet bit 7 of `illegal[5][11]` is not set. -/
theorem C12_collinear_square_left_unmarked :
    ∃ t, Committed true 12 5 t ∧ t.board 5 1 = 2 ^ 2 ∧ t.board 5 5 = 2 ^ 4
      ∧ ((7 : Int) - 4) * (5 - 1) = (4 - 2) * (11 - 5)
      ∧ (t.illegal 5 11).testBit 7 = false := by
  obtain ⟨h1, h2, h3, h4⟩ := eval_descent_12
  have hc := committed_first_descent true 12 [0, 2, 5, 1, 6] 4 0 zeroState Reach.start h1
  exact ⟨_, hc, h2, h3, by decide, h4⟩

/-- The collinearity pass computes the true column difference when both queens stand in
columns below 32. -/
theorem col_diff_of_lt_32 (board : Nat → Nat) (i_prev i_cur p q : Nat) (hp : p < 32)
    (hq : q < 32) (hbp : board i_prev = 2 ^ p) (hbq : board i_cur = 2 ^ q) :
    col_diff board i_prev i_cur = (p : Int) - (q : Int) := by
  unfold col_diff
  rw [hbp, hbq, findfirstset_two_pow p hp, findfirstset_two_pow q hq]
  push_cast
  omega

theorem collinear_step_eq_walk (board : Nat → Nat) (i_cur n bits i_prev : Nat)
    (ill : Nat → Nat) :
    collinear_step board i_cur n bits i_prev ill
      = collinear_walk n (i_cur - i_prev) (col_diff board i_prev i_cur) n
          (i_cur + (i_cur - i_prev)) bits ill := rfl

/-- C13 (evaluation at the failing input). In the run for n = 34 with the revised rule on,
the first descent commits the queen of row 19 at column 33, the queen of row 0 standing at
column 0.  For the pair of rows 0 and 19 the collinearity pass computes `col_diff = 1`, while
the true column difference is 0 - 33. -/
theorem C13_col_diff_wrong_from_column_32 :
    ∃ t, Committed true 34 19 t ∧ t.board 19 0 = 2 ^ 0 ∧ t.board 19 19 = 2 ^ 33
      ∧ col_diff (t.board 19) 0 19 = 1 ∧ col_diff (t.board 19) 0 19 ≠ (0 : Int) - 33 := by
  obtain ⟨h1, h2, h3, h4⟩ := eval_descent_34
  have hc := committed_first_descent true 34
    [0, 2, 5, 1, 6, 4, 10, 12, 15, 17, 3, 7, 9, 19, 8, 24, 11, 27, 29] 33 0 zeroState
    Reach.start h1
  refine ⟨_, hc, h2, h3, h4, ?_⟩
  rw [h4]
  decide

/-- C14 (counterexample). `findfirstset` applied to the mask `1 << 0` returns 1, not the
0-based index 0 of its set bit, and applied to `1 << 63` it returns 0, not 63. -/
theorem C14_findfirstset_not_zero_based :
    findfirstset (shl64 1 0) = 1 ∧ findfirstset (shl64 1 0) ≠ 0
      ∧ findfirstset (shl64 1 63) = 0 ∧ findfirstset (shl64 1 63) ≠ 63 := by
  decide

theorem exists_lowest_set_bit (x : Nat) (hx : x ≠ 0) : ∃ k, IsLowestSetBit x k := by
  have hex : ∃ k, x.testBit k = true := Nat.ne_zero_implies_bit_true hx
  refine ⟨Nat.find hex, Nat.find_spec hex, fun j hj => ?_⟩
  have := Nat.find_min hex hj
  simpa using this

/-- C14 (amended). For every column k ≤ 63 the row mask `1 << k` is nonzero (it is `2^k`),
and for k ≤ 31 `findfirstset` applied to it returns k + 1; more generally, for every row
mask whose low 32 bits are not all zero, `findfirstset` returns one plus the 0-based index
of the lowest set bit. -/
theorem C14_findfirstset_one_based :
    (∀ k, k ≤ 63 → shl64 1 k = 2 ^ k ∧ shl64 1 k ≠ 0)
      ∧ (∀ k, k ≤ 31 → findfirstset (shl64 1 k) = k + 1)
      ∧ ∀ x, x % 2 ^ 32 ≠ 0 → ∃ k, IsLowestSetBit x k ∧ findfirstset x = k + 1 := by
  refine ⟨fun k hk => ?_, fun k hk => ?_, fun x hx => ?_⟩
  · rw [shl64_one k (by omega)]
    exact ⟨rfl, Nat.pos_iff_ne_zero.mp (Nat.two_pow_pos k)⟩
  · rw [shl64_one k (by omega)]
    exact findfirstset_two_pow k (by omega)
  · obtain ⟨k, hk1, hk2⟩ := exists_lowest_set_bit (x % 2 ^ 32) hx
    rw [Nat.testBit_mod_two_pow] at hk1
    simp only [Bool.and_eq_true, decide_eq_true_eq] at hk1
    obtain ⟨hk32, hkx⟩ := hk1
    refine ⟨k, ⟨hkx, fun j hj => ?_⟩, ?_⟩
    · have := hk2 j hj
      rw [Nat.testBit_mod_two_pow] at this
      simpa [show j < 32 by omega] using this
    · unfold findfirstset builtin_ffs
      apply ffsScan_spec (x % 2 ^ 32) k
      · rw [Nat.testBit_mod_two_pow]; simp [hk32, hkx]
      · intro j _ hj; exact hk2 j hj
      · exact Nat.zero_le _
      · omega

/-- Instance of C14 (amended) at column 31 and at the mask 96 (bits 5 and 6). -/
theorem C14_witness :
    findfirstset (shl64 1 31) = 31 + 1 ∧ ∃ k, IsLowestSetBit 96 k ∧ findfirstset 96 = k + 1 :=
  ⟨C14_findfirstset_one_based.2.1 31 (by decide), C14_findfirstset_one_based.2.2 96 (by decide)⟩

/-- C18 (counterexample). In the run for n = 4 with the revised rule on, after the queens of
rows 0 and 1 are committed at columns 0 and 2, the mask `illegal[1][2]` has bit 4 set, a
column index that is not below n = 4. -/
theorem C18_mask_bit_beyond_n :
    ∃ t, Committed true 4 1 t ∧ (t.illegal 1 2).testBit 4 = true ∧ ¬ (4 < 4) := by
  obtain ⟨h1, h2⟩ := eval_descent_4
  have hc := committed_first_descent true 4 [0] 2 0 zeroState Reach.start h1
  exact ⟨_, hc, h2, by decide⟩

/-! ## Order of the passes -/

theorem set_illegal_eq_run_passes (revised : Bool) (board illegal : Nat → Nat)
    (i_cur n new_pos_bits new_pos : Nat) :
    set_illegal revised board illegal i_cur n new_pos_bits new_pos
      = run_passes (set_illegal_passes revised board i_cur n new_pos_bits new_pos) illegal := by
  cases revised <;> rfl

theorem orMap_forUp_or (cur : Nat) (f : Nat → Nat) (count : Nat) :
    OrMap cur (forUp (fun step ill => store ill (cur + step) (ill (cur + step) ||| f step))
      count 1) := by
  refine ⟨fun r => if cur + 1 ≤ r ∧ r < cur + 1 + count then f (r - cur) else 0, ?_, ?_⟩
  · intro r hr
    show (if cur + 1 ≤ r ∧ r < cur + 1 + count then f (r - cur) else 0) = 0
    rw [if_neg (show ¬ (cur + 1 ≤ r ∧ r < cur + 1 + count) by omega)]
  · intro ill r
    rw [forUp_or_apply]
    show _ = ill r ||| (if cur + 1 ≤ r ∧ r < cur + 1 + count then f (r - cur) else 0)
    by_cases h : cur + 1 ≤ r ∧ r < cur + 1 + count
    · rw [if_pos h, if_pos h]
    · rw [if_neg h, if_neg h, Nat.or_zero]

theorem orMap_walk (n rd : Nat) (cd : Int) :
    ∀ (fuel i_rem pos : Nat), ∃ M : Nat → Nat, (∀ r, r < i_rem → M r = 0)
      ∧ ∀ ill r, collinear_walk n rd cd fuel i_rem pos ill r = ill r ||| M r := by
  intro fuel
  induction fuel with
  | zero =>
    intro i_rem pos
    exact ⟨fun _ => 0, fun _ _ => rfl, fun ill r => by simp [collinear_walk]⟩
  | succ f ih =>
    intro i_rem pos
    by_cases hcond : i_rem < n ∧ pos ≠ 0
    · obtain ⟨M, hM0, hM⟩ := ih (i_rem + rd)
        (if cd > 0 then shr64 pos cd.toNat else shl64 pos (-cd).toNat)
      refine ⟨fun r => (if r = i_rem then
          (if cd > 0 then shr64 pos cd.toNat else shl64 pos (-cd).toNat) else 0) ||| M r,
        ?_, ?_⟩
      · intro r hr
        simp only []
        rw [if_neg (by omega), hM0 r (by omega)]
        rfl
      · intro ill r
        unfold collinear_walk
        rw [if_pos hcond]
        simp only []
        rw [hM, store_apply]
        split
        · rename_i heq
          subst heq
          rw [Nat.or_assoc]
        · rw [Nat.zero_or]
    · refine ⟨fun _ => 0, fun _ _ => rfl, fun ill r => ?_⟩
      unfold collinear_walk
      rw [if_neg hcond, Nat.or_zero]

theorem orMap_collinear_step (board : Nat → Nat) (i_cur n bits i_prev : Nat)
    (h : i_prev < i_cur) : OrMap i_cur (collinear_step board i_cur n bits i_prev) := by
  obtain ⟨M, hM0, hM⟩ := orMap_walk n (i_cur - i_prev) (col_diff board i_prev i_cur) n
    (i_cur + (i_cur - i_prev)) bits
  exact ⟨M, fun r hr => hM0 r (by omega), fun ill r => hM ill r⟩

theorem orMap_id (cur : Nat) : OrMap cur (fun ill => ill) :=
  ⟨fun _ => 0, fun _ _ => rfl, fun ill r => (Nat.or_zero (ill r)).symm⟩

theorem orMap_comp (cur : Nat) (P Q : (Nat → Nat) → Nat → Nat) (hP : OrMap cur P)
    (hQ : OrMap cur Q) : OrMap cur (fun ill => Q (P ill)) := by
  obtain ⟨M, hM0, hM⟩ := hP
  obtain ⟨N, hN0, hN⟩ := hQ
  refine ⟨fun r => M r ||| N r, fun r hr => ?_, fun ill r => ?_⟩
  · simp only []
    rw [hM0 r hr, hN0 r hr]
    rfl
  · simp only []
    rw [hN, hM, Nat.or_assoc]

theorem orMap_forUp (cur : Nat) (body : Nat → (Nat → Nat) → Nat → Nat) :
    ∀ (count start : Nat), (∀ k, start ≤ k → k < start + count → OrMap cur (body k)) →
      OrMap cur (forUp body count start) := by
  intro count
  induction count with
  | zero => intro start _; exact orMap_id cur
  | succ m ih =>
    intro start h
    have h1 := h start (Nat.le_refl _) (by omega)
    have h2 := ih (start + 1) (fun k hk1 hk2 => h k (by omega) (by omega))
    exact orMap_comp cur (body start) (forUp body m (start + 1)) h1 h2

theorem orMap_commute (cur : Nat) (P Q : (Nat → Nat) → Nat → Nat) (hP : OrMap cur P)
    (hQ : OrMap cur Q) (ill : Nat → Nat) : Q (P ill) = P (Q ill) := by
  obtain ⟨M, _, hM⟩ := hP
  obtain ⟨N, _, hN⟩ := hQ
  funext r
  rw [hN, hM, hM, hN, Nat.or_assoc, Nat.or_assoc, Nat.or_comm (M r)]

/-- Each of the four passes of `set_illegal` ORs a fixed mask into the rows below `i_cur`. -/
theorem orMap_passes (revised : Bool) (board : Nat → Nat) (i_cur n bits new_pos : Nat) :
    ∀ P, P ∈ set_illegal_passes revised board i_cur n bits new_pos → OrMap i_cur P := by
  intro P hP
  simp only [set_illegal_passes, List.mem_cons, List.mem_singleton, List.not_mem_nil,
    or_false] at hP
  rcases hP with h | h | h | h
  · rw [h]; exact orMap_forUp_or i_cur (fun step => shr64 bits step) _
  · rw [h]; exact orMap_forUp_or i_cur (fun step => shl64 bits step) _
  · rw [h]; exact orMap_forUp_or i_cur (fun _ => bits) _
  · rw [h]
    cases revised with
    | false => exact orMap_id i_cur
    | true =>
      exact orMap_forUp i_cur _ i_cur 0
        (fun k _ hk => orMap_collinear_step board i_cur n bits k (by omega))

theorem orMap_run_passes (cur : Nat) :
    ∀ (passes : List ((Nat → Nat) → Nat → Nat)), (∀ P, P ∈ passes → OrMap cur P) →
      OrMap cur (run_passes passes) := by
  intro passes
  induction passes with
  | nil => intro _; exact orMap_id cur
  | cons P rest ih =>
    intro h
    have h1 := h P (List.mem_cons_self _ _)
    have h2 := ih (fun Q hQ => h Q (List.mem_cons_of_mem _ hQ))
    exact orMap_comp cur P (run_passes rest) h1 h2

/-- C17. The four contribution passes of `set_illegal` only set bits: for every input, every
row of the resulting illegal array is a bitwise superset of the input row, the rows 0..i_cur
are unchanged, and applying the four passes in any order yields the same illegal array. -/
theorem C17_passes_only_set_bits (revised : Bool) (board illegal : Nat → Nat)
    (i_cur n new_pos_bits new_pos : Nat) :
    (∀ r c, (illegal r).testBit c = true →
        (set_illegal revised board illegal i_cur n new_pos_bits new_pos r).testBit c = true)
      ∧ (∀ r, r ≤ i_cur →
          set_illegal revised board illegal i_cur n new_pos_bits new_pos r = illegal r)
      ∧ ∀ passes, passes.Perm (set_illegal_passes revised board i_cur n new_pos_bits new_pos) →
          run_passes passes illegal
            = set_illegal revised board illegal i_cur n new_pos_bits new_pos := by
  have hall := orMap_passes revised board i_cur n new_pos_bits new_pos
  obtain ⟨M, hM0, hM⟩ := orMap_run_passes i_cur _ hall
  refine ⟨fun r c hbit => ?_, fun r hr => ?_, fun passes hperm => ?_⟩
  · rw [set_illegal_eq_run_passes, hM, Nat.testBit_lor, hbit, Bool.true_or]
  · rw [set_illegal_eq_run_passes, hM, hM0 r hr, Nat.or_zero]
  · rw [set_illegal_eq_run_passes]
    unfold run_passes
    apply List.Perm.foldl_eq' hperm
    intro P hP Q hQ ill
    exact orMap_commute i_cur P Q (hall P (hperm.subset hP)) (hall Q (hperm.subset hQ)) ill

/-- Instance of C17: the four passes applied in reverse order give the array of
`set_illegal`. -/
theorem C17_witness :
    run_passes (set_illegal_passes true (fun r => 2 ^ [1, 3].getD r 0) 1 4 (2 ^ 3) 3).reverse
        (fun _ => 0)
      = set_illegal true (fun r => 2 ^ [1, 3].getD r 0) (fun _ => 0) 1 4 (2 ^ 3) 3 :=
  (C17_passes_only_set_bits true (fun r => 2 ^ [1, 3].getD r 0) (fun _ => 0) 1 4 (2 ^ 3) 3).2.2
    _ (List.reverse_perm _)

/-! ## Range of the illegal masks -/

theorem shl64_lt (x k : Nat) : shl64 x k < 2 ^ 64 :=
  Nat.mod_lt _ (Nat.two_pow_pos 64)

theorem shr64_le (x k : Nat) : shr64 x k ≤ x := by
  unfold shr64
  rw [Nat.shiftRight_eq_div_pow]
  exact Nat.div_le_self _ _

theorem collinear_walk_bounded (n rd : Nat) (cd : Int) :
    ∀ (fuel i_rem pos : Nat) (ill : Nat → Nat), pos < 2 ^ 64 → (∀ r, ill r < 2 ^ 64) →
      ∀ r, collinear_walk n rd cd fuel i_rem pos ill r < 2 ^ 64 := by
  intro fuel
  induction fuel with
  | zero => intro i_rem pos ill _ h r; exact h r
  | succ f ih =>
    intro i_rem pos ill hpos h r
    unfold collinear_walk
    split
    · have hpos1 : (if cd > 0 then shr64 pos cd.toNat else shl64 pos (-cd).toNat) < 2 ^ 64 := by
        split
        · exact Nat.lt_of_le_of_lt (shr64_le _ _) hpos
        · exact shl64_lt _ _
      apply ih _ _ _ hpos1
      intro x
      rw [store_apply]
      split
      · exact Nat.or_lt_two_pow (h _) hpos1
      · exact h x
    · exact h r

theorem set_illegal_bounded (revised : Bool) (board illegal : Nat → Nat) (cur n bits p : Nat)
    (hbits : bits < 2 ^ 64) (h : ∀ r, illegal r < 2 ^ 64) :
    ∀ r, set_illegal revised board illegal cur n bits p r < 2 ^ 64 := by
  have hcl : ∀ r, set_illegal false board illegal cur n bits p r < 2 ^ 64 := by
    intro r
    rw [set_illegal_classical_apply]
    split
    · apply Nat.or_lt_two_pow _ hbits
      apply Nat.or_lt_two_pow
      · split
        · exact Nat.or_lt_two_pow (h r) (Nat.lt_of_le_of_lt (shr64_le _ _) hbits)
        · exact h r
      · split
        · exact shl64_lt _ _
        · exact Nat.two_pow_pos 64
    · exact h r
  cases revised with
  | false => exact hcl
  | true =>
    rw [set_illegal_revised_eq]
    exact forUp_preserves _ (fun ill => ∀ r, ill r < 2 ^ 64)
      (fun k s hs => collinear_walk_bounded _ _ _ _ _ _ s hbits hs) cur 0 _ hcl

theorem place_bounded (revised : Bool) (n i c : Nat) (s : State) (h : MasksBounded s) :
    MasksBounded (place revised n i c s) := by
  intro d r
  by_cases hd : d = i
  · subst hd
    rw [place_illegal_self]
    apply set_illegal_bounded _ _ _ _ _ _ _ (shl64_lt 1 c)
    intro x
    split
    · rw [copy_apply]
      split
      · exact h _ _
      · exact h _ _
    · rw [zero_apply]
      split
      · exact Nat.two_pow_pos 64
      · exact h _ _
  · rw [place_illegal_ne _ _ _ _ _ _ hd]
    exact h d r

theorem try_columns_bounded (revised : Bool) (n i : Nat)
    (recurse : State → Option (Bool × State))
    (hrec : ∀ s r, recurse s = some r → MasksBounded s → MasksBounded r.2) :
    ∀ (count new_pos : Nat) (s : State) (r : Bool × State),
      try_columns revised n i recurse count new_pos s = some r → MasksBounded s →
      MasksBounded r.2 := by
  intro count
  induction count with
  | zero =>
    intro new_pos s r h hs
    rw [try_columns_zero] at h
    cases h
    exact hs
  | succ k ih =>
    intro new_pos s r h hs
    by_cases hl : i = 0 ∨ is_legal (s.illegal (i - 1)) i n (shl64 1 new_pos) = true
    · cases hr : recurse (place revised n i new_pos s) with
      | none => rw [try_columns_take_none _ _ _ _ _ _ _ hl hr] at h; cases h
      | some res =>
        obtain ⟨b, s1⟩ := res
        have h1 : MasksBounded s1 := hrec _ _ hr (place_bounded revised n i new_pos s hs)
        cases b with
        | true =>
          rw [try_columns_take_true _ _ _ _ _ _ _ _ hl hr] at h
          cases h
          exact h1
        | false =>
          rw [try_columns_take_false _ _ _ _ _ _ _ _ hl hr] at h
          exact ih (new_pos + 1) s1 r h h1
    · rw [try_columns_skip _ _ _ _ _ _ _ hl] at h
      exact ih (new_pos + 1) s r h hs

theorem queens_recurse_fuel_bounded (revised : Bool) (n : Nat) :
    ∀ (fuel i : Nat) (s : State) (r : Bool × State),
      queens_recurse_fuel revised n fuel i s = some r → MasksBounded s → MasksBounded r.2 := by
  intro fuel
  induction fuel with
  | zero =>
    intro i s r h hs
    by_cases hin : i = n
    · subst hin
      rw [qrf_done] at h
      cases h
      exact hs
    · rw [qrf_zero _ _ _ _ hin] at h
      cases h
  | succ f ih =>
    intro i s r h hs
    by_cases hin : i = n
    · subst hin
      rw [qrf_done] at h
      cases h
      exact hs
    · rw [qrf_succ _ _ _ _ _ hin] at h
      exact try_columns_bounded revised n i _ (fun s' r' hr' => ih (i + 1) s' r' hr') n 0 s r h hs

/-- Every illegal mask of every state of the run fits the 64-bit row word. -/
theorem reach_bounded (revised : Bool) (n i : Nat) (s : State) (c : Nat)
    (h : Reach revised n i s c) : MasksBounded s := by
  induction h with
  | start => intro d r; exact Nat.two_pow_pos 64
  | skip _ _ _ _ ih => exact ih
  | enter _ _ _ _ ih => exact place_bounded _ _ _ _ _ ih
  | back _ _ _ _ hret ih =>
    exact queens_recurse_fuel_bounded revised n _ _ _ _ hret (place_bounded _ _ _ _ _ ih)

theorem collinear_walk_stop (n rd : Nat) (cd : Int) (fuel i_rem pos : Nat) (ill : Nat → Nat)
    (h : pos = 0 ∨ n ≤ i_rem) : collinear_walk n rd cd fuel i_rem pos ill = ill := by
  cases fuel with
  | zero => rfl
  | succ f =>
    unfold collinear_walk
    rw [if_neg (by omega)]

theorem shr64_two_pow_eq_zero (q d : Nat) : shr64 (2 ^ q) d = 0 ↔ q < d := by
  unfold shr64
  rw [Nat.shiftRight_eq_div_pow, Nat.div_eq_zero_iff (Nat.two_pow_pos d)]
  exact Nat.pow_lt_pow_iff_right (by decide)

theorem shl64_two_pow_eq_zero (q d : Nat) : shl64 (2 ^ q) d = 0 ↔ 64 ≤ q + d := by
  unfold shl64
  rw [Nat.shiftLeft_eq, ← Nat.pow_add]
  constructor
  · intro h
    by_contra hlt
    rw [Nat.mod_eq_of_lt (Nat.pow_lt_pow_right (by decide) (by omega))] at h
    exact absurd h (Nat.pos_iff_ne_zero.mp (Nat.two_pow_pos _))
  · intro h
    exact Nat.mod_eq_zero_of_dvd (Nat.pow_dvd_pow 2 h)

/-! ## Exact reading of the masks with the revised rule on -/

/-- One shift of the walk applied to a queen bit at column `x`: the bit moves to column
`x - col_diff` when that column lies in the range `[0, 64)` of the row word, and the mask
becomes zero otherwise. -/
theorem walk_shift_two_pow (cd : Int) (x : Nat) (hx : x < 64) :
    (∃ y : Nat, y < 64 ∧ (y : Int) = (x : Int) - cd
        ∧ (if cd > 0 then shr64 (2 ^ x) cd.toNat else shl64 (2 ^ x) (-cd).toNat) = 2 ^ y)
      ∨ (((x : Int) - cd < 0 ∨ 64 ≤ (x : Int) - cd)
        ∧ (if cd > 0 then shr64 (2 ^ x) cd.toNat else shl64 (2 ^ x) (-cd).toNat) = 0) := by
  by_cases hcd : cd > 0
  · rw [if_pos hcd]
    by_cases hle : cd.toNat ≤ x
    · left
      refine ⟨x - cd.toNat, by omega, by omega, ?_⟩
      unfold shr64
      rw [Nat.shiftRight_eq_div_pow, Nat.pow_div hle (by decide)]
    · right
      exact ⟨Or.inl (by omega), (shr64_two_pow_eq_zero x _).mpr (by omega)⟩
  · rw [if_neg hcd]
    by_cases hlt : x + (-cd).toNat < 64
    · left
      refine ⟨x + (-cd).toNat, hlt, by omega, ?_⟩
      unfold shl64
      rw [Nat.shiftLeft_eq, ← Nat.pow_add,
        Nat.mod_eq_of_lt (Nat.pow_lt_pow_right (by decide) hlt)]
    · right
      exact ⟨Or.inr (by omega), (shl64_two_pow_eq_zero x _).mpr (by omega)⟩

/-- Exact effect of the walk started with a queen bit at column `x`: step `m` (counted from
0) sets, in row `i_rem + m * row_diff`, the bit at column `x - (m + 1) * col_diff`, as long as
the row is below `n` and the column is in the range `[0, 64)` of the row word. -/
theorem collinear_walk_exact (n rd : Nat) (cd : Int) (r c : Nat) :
    ∀ (fuel i_rem x : Nat) (ill : Nat → Nat), x < 64 →
      ((collinear_walk n rd cd fuel i_rem (2 ^ x) ill r).testBit c = true
        ↔ (ill r).testBit c = true
          ∨ ∃ m, m < fuel ∧ r = i_rem + m * rd ∧ r < n
              ∧ (c : Int) = (x : Int) - ((m : Int) + 1) * cd ∧ c < 64) := by
  intro fuel
  induction fuel with
  | zero =>
    intro i_rem x ill _
    constructor
    · intro h; exact Or.inl h
    · rintro (h | ⟨m, hm, _⟩)
      · exact h
      · omega
  | succ f ih =>
    intro i_rem x ill hx
    by_cases hrem : i_rem < n
    · have hcond : i_rem < n ∧ 2 ^ x ≠ 0 := ⟨hrem, Nat.pos_iff_ne_zero.mp (Nat.two_pow_pos x)⟩
      unfold collinear_walk
      rw [if_pos hcond]
      rcases walk_shift_two_pow cd x hx with ⟨y, hy, hyx, hsh⟩ | ⟨hout, hsh⟩
      · rw [hsh, ih (i_rem + rd) y _ hy, store_apply]
        constructor
        · rintro (h | ⟨m, hm, hr, hrn, hc, hc64⟩)
          · by_cases hri : r = i_rem
            · rw [if_pos hri, Nat.testBit_lor, Bool.or_eq_true, Nat.testBit_two_pow,
                decide_eq_true_eq] at h
              rcases h with h | h
              · left; rw [hri]; exact h
              · right
                refine ⟨0, by omega, by omega, hri ▸ hrem, ?_, by omega⟩
                rw [← h, hyx]
                push_cast
                ring
            · rw [if_neg hri] at h
              exact Or.inl h
          · right
            refine ⟨m + 1, by omega, ?_, hrn, ?_, hc64⟩
            · rw [hr]; ring
            · rw [hc, hyx]; push_cast; ring
        · rintro (h | ⟨m, hm, hr, hrn, hc, hc64⟩)
          · left
            by_cases hri : r = i_rem
            · rw [if_pos hri, Nat.testBit_lor, ← hri, h, Bool.true_or]
            · rw [if_neg hri]; exact h
          · cases m with
            | zero =>
              left
              have hri : r = i_rem := by omega
              have hcy : y = c := by
                have : (c : Int) = (x : Int) - cd := by rw [hc]; push_cast; ring
                omega
              rw [if_pos hri, Nat.testBit_lor, Nat.testBit_two_pow, hcy]
              simp
            | succ m' =>
              right
              refine ⟨m', by omega, ?_, hrn, ?_, hc64⟩
              · rw [hr]; ring
              · rw [hc, hyx]; push_cast; ring
      · rw [hsh, collinear_walk_stop _ _ _ _ _ _ _ (Or.inl rfl), store_apply, Nat.or_zero]
        have hill : (if r = i_rem then ill i_rem else ill r) = ill r := by
          split
          · rename_i hri; rw [hri]
          · rfl
        rw [hill]
        constructor
        · intro h; exact Or.inl h
        · rintro (h | ⟨m, hm, hr, hrn, hc, hc64⟩)
          · exact h
          · exfalso
            have hc' : (c : Int) = (x : Int) - cd - (m : Int) * cd := by rw [hc]; ring
            rcases hout with ho | ho
            · have hpos : 0 ≤ (m : Int) * cd :=
                Int.mul_nonneg (Int.ofNat_nonneg m) (by omega)
              omega
            · have hneg : (m : Int) * cd ≤ 0 :=
                Int.mul_nonpos_of_nonneg_of_nonpos (Int.ofNat_nonneg m) (by omega)
              omega
    · unfold collinear_walk
      rw [if_neg (fun h => hrem h.1)]
      constructor
      · intro h; exact Or.inl h
      · rintro (h | ⟨m, hm, hr, hrn, _⟩)
        · exact h
        · exfalso
          have : i_rem ≤ i_rem + m * rd := Nat.le_add_right _ _
          omega

/-- Exact effect of the collinearity pass for one pair of queens in columns below 32: it sets
the would-be collinear column `q + k (q - p)` in the rows `i_cur + k (i_cur - i_prev)` below
`n`, for `k = 1, 2, ...`, as long as that column is in the range `[0, 64)` of the row word. -/
theorem collinear_step_exact (board ill : Nat → Nat) (cur n prev p q : Nat) (hprev : prev < cur)
    (hp : p < 32) (hq : q < 32) (hbp : board prev = 2 ^ p) (hbq : board cur = 2 ^ q)
    (r c : Nat) :
    (collinear_step board cur n (2 ^ q) prev ill r).testBit c = true
      ↔ (ill r).testBit c = true
        ∨ ∃ k, 1 ≤ k ∧ r = cur + k * (cur - prev) ∧ r < n
            ∧ (c : Int) = (q : Int) + (k : Int) * ((q : Int) - (p : Int)) ∧ c < 64 := by
  rw [collinear_step_eq_walk, col_diff_of_lt_32 board prev cur p q hp hq hbp hbq,
    collinear_walk_exact n _ _ r c n _ q ill (by omega)]
  constructor
  · rintro (h | ⟨m, _, hr, hrn, hc, hc64⟩)
    · exact Or.inl h
    · right
      refine ⟨m + 1, by omega, ?_, hrn, ?_, hc64⟩
      · rw [hr]; ring
      · rw [hc]; push_cast; ring
  · rintro (h | ⟨k, hk, hr, hrn, hc, hc64⟩)
    · exact Or.inl h
    · right
      obtain ⟨m, rfl⟩ : ∃ m, k = m + 1 := ⟨k - 1, by omega⟩
      have hm : m ≤ m * (cur - prev) := Nat.le_mul_of_pos_right m (by omega)
      have hexp : (m + 1) * (cur - prev) = (cur - prev) + m * (cur - prev) := by ring
      refine ⟨m, by omega, ?_, hrn, ?_, hc64⟩
      · rw [hr, hexp]; ring
      · rw [hc]; push_cast; ring

/-- Bit-level reading of the three classical passes at every bit position: the bits they set
are attacked squares, all at columns below `n`. -/
theorem testBit_set_illegal_classical_all (board illegal : Nat → Nat) (cur n p r c : Nat)
    (hr : cur < r) (hrn : r < n) (hp : p < n) (hn : n ≤ 64) :
    (set_illegal false board illegal cur n (2 ^ p) p r).testBit c = true
      ↔ ((illegal r).testBit c = true ∨ (c < n ∧ attacks p cur r c)) := by
  rw [set_illegal_classical_apply, if_pos ⟨hr, hrn⟩]
  rw [Nat.testBit_lor, Nat.testBit_lor, Nat.testBit_two_pow]
  unfold attacks
  by_cases h1 : r - cur ≤ p <;> by_cases h2 : r - cur ≤ n - p - 1
  all_goals simp only [h1, h2, if_true, if_false, Nat.testBit_lor, Bool.or_eq_true,
    testBit_shr64_two_pow, testBit_shl64_two_pow, Nat.zero_testBit, decide_eq_true_eq]
  all_goals by_cases hb : (illegal r).testBit c = true
  all_goals simp only [hb, true_or, false_or, or_false, Bool.false_eq_true, iff_true, iff_self]
  all_goals omega

/-- A loop whose iteration `k` adds the bit exactly when `W k` holds adds it exactly when
some iteration does. -/
theorem forUp_bit_iff (body : Nat → (Nat → Nat) → Nat → Nat) (r c : Nat) (W : Nat → Prop) :
    ∀ (count start : Nat) (s : Nat → Nat),
      (∀ k (t : Nat → Nat), start ≤ k → k < start + count →
        ((body k t r).testBit c = true ↔ (t r).testBit c = true ∨ W k)) →
      ((forUp body count start s r).testBit c = true
        ↔ (s r).testBit c = true ∨ ∃ k, start ≤ k ∧ k < start + count ∧ W k) := by
  intro count
  induction count with
  | zero =>
    intro start s _
    constructor
    · intro h; exact Or.inl h
    · rintro (h | ⟨k, h1, h2, _⟩)
      · exact h
      · omega
  | succ m ih =>
    intro start s hbody
    rw [forUp_succ, ih (start + 1) (body start s)
      (fun k t hk1 hk2 => hbody k t (by omega) (by omega)),
      hbody start s (Nat.le_refl _) (by omega)]
    constructor
    · rintro ((h | h) | ⟨k, h1, h2, h3⟩)
      · exact Or.inl h
      · exact Or.inr ⟨start, Nat.le_refl _, by omega, h⟩
      · exact Or.inr ⟨k, by omega, by omega, h3⟩
    · rintro (h | ⟨k, h1, h2, h3⟩)
      · exact Or.inl (Or.inl h)
      · by_cases hk : k = start
        · subst hk; exact Or.inl (Or.inr h3)
        · exact Or.inr ⟨k, by omega, by omega, h3⟩

/-- Exact effect of `set_illegal` with the revised rule on, for queens in columns below 32. -/
theorem set_illegal_revised_exact (board illegal col : Nat → Nat) (cur n q r c : Nat)
    (hr : cur < r) (hrn : r < n) (hq : q < n) (hn : n ≤ 32)
    (hboard : ∀ prev, prev < cur → col prev < 32 ∧ board prev = 2 ^ col prev)
    (hcur : board cur = 2 ^ q) :
    (set_illegal true board illegal cur n (2 ^ q) q r).testBit c = true
      ↔ ((illegal r).testBit c = true ∨ (c < n ∧ attacks q cur r c))
        ∨ ∃ prev, 0 ≤ prev ∧ prev < 0 + cur ∧ ∃ k, 1 ≤ k ∧ r = cur + k * (cur - prev) ∧ r < n
            ∧ (c : Int) = (q : Int) + (k : Int) * ((q : Int) - (col prev : Int)) ∧ c < 64 := by
  rw [set_illegal_revised_eq,
    forUp_bit_iff (fun i_prev ill => collinear_step board cur n (2 ^ q) i_prev ill) r c
      (fun prev => ∃ k, 1 ≤ k ∧ r = cur + k * (cur - prev) ∧ r < n
        ∧ (c : Int) = (q : Int) + (k : Int) * ((q : Int) - (col prev : Int)) ∧ c < 64)
      cur 0 _
      (fun k t _ hk => collinear_step_exact board t cur n k (col k) q (by omega)
        (hboard k (by omega)).1 (by omega) (hboard k (by omega)).2 hcur r c),
    testBit_set_illegal_classical_all board illegal cur n q r c hr hrn hq (by omega)]

theorem exactRev_zero (n : Nat) (col : Nat → Nat) : ExactRev n 0 (fun _ => 0) col := by
  intro r _ _ c
  constructor
  · intro h; simp at h
  · rintro (⟨_, j, hj, _⟩ | ⟨_, j, k, m, _, hk, _⟩)
    · omega
    · omega

/-- Committing a queen at column `q` of row `i` keeps the masks exact, for `n ≤ 32`. -/
theorem place_exactRev (n i q : Nat) (b l b0 l0 col : Nat → Nat)
    (hinv : Inv true n i b l col) (hex : ExactRev n i l col) (hi : i < n) (hq : q < n)
    (hn : n ≤ 32) (hb0 : ∀ r, r < n → b0 r = b r) (hl0 : ∀ r, r < n → l0 r = l r) :
    ExactRev n (i + 1) (set_illegal true (store b0 i (2 ^ q)) l0 i n (2 ^ q) q)
      (store col i q) := by
  intro r hr hrn c
  have hboard : ∀ prev, prev < i → col prev < 32 ∧ store b0 i (2 ^ q) prev = 2 ^ col prev := by
    intro prev hprev
    have := hinv.col_lt prev hprev
    refine ⟨by omega, ?_⟩
    rw [store_apply, if_neg (by omega), hb0 prev (by omega)]
    exact hinv.board_eq prev hprev
  have hcur : store b0 i (2 ^ q) i = 2 ^ q := by rw [store_apply, if_pos rfl]
  rw [set_illegal_revised_exact _ l0 col i n q r c (by omega) hrn hq hn hboard hcur,
    hl0 r hrn, hex r (by omega) hrn c]
  constructor
  · rintro (((⟨hc, j, hj, hatt⟩ | ⟨hc, j, k, m, hjk, hk, hm, hrow, hcol⟩) | ⟨hc, hatt⟩)
      | ⟨prev, _, hprev, k, hk, hrow, _, hcol, hc⟩)
    · left
      refine ⟨hc, j, by omega, ?_⟩
      rw [store_apply, if_neg (by omega)]
      exact hatt
    · right
      refine ⟨hc, j, k, m, hjk, by omega, hm, hrow, ?_⟩
      rw [store_apply, store_apply, if_neg (by omega), if_neg (by omega)]
      exact hcol
    · left
      refine ⟨hc, i, by omega, ?_⟩
      rw [store_apply, if_pos rfl]
      exact hatt
    · right
      refine ⟨hc, prev, i, k, by omega, by omega, hk, hrow, ?_⟩
      rw [store_apply, store_apply, if_pos rfl, if_neg (by omega)]
      exact hcol
  · rintro (⟨hc, j, hj, hatt⟩ | ⟨hc, j, k, m, hjk, hk, hm, hrow, hcol⟩)
    · by_cases hji : j = i
      · subst hji
        rw [store_apply, if_pos rfl] at hatt
        exact Or.inl (Or.inr ⟨hc, hatt⟩)
      · rw [store_apply, if_neg hji] at hatt
        exact Or.inl (Or.inl (Or.inl ⟨hc, j, by omega, hatt⟩))
    · by_cases hki : k = i
      · subst hki
        rw [store_apply, store_apply, if_pos rfl, if_neg (by omega)] at hcol
        exact Or.inr ⟨j, Nat.zero_le _, by omega, m, hm, hrow, hrn, hcol, hc⟩
      · rw [store_apply, store_apply, if_neg hki, if_neg (by omega)] at hcol
        exact Or.inl (Or.inl (Or.inr ⟨hc, j, k, m, hjk, by omega, hm, hrow, hcol⟩))

/-- With the revised rule on and `n ≤ 32`, every state of the run satisfies the invariant of
the search and has exact illegal masks. -/
theorem reach_exactRev (n : Nat) (hn : n ≤ 32) (i : Nat) (s : State) (c : Nat)
    (h : Reach true n i s c) :
    ∃ col, Inv true n i (prevBoard s i) (prevIllegal s i) col
      ∧ ExactRev n i (prevIllegal s i) col := by
  induction h with
  | start =>
    refine ⟨fun _ => 0, inv_zero true n _, ?_⟩
    have h0 : prevIllegal zeroState 0 = fun _ => 0 := by funext r; simp [prevIllegal]
    rw [h0]
    exact exactRev_zero n _
  | skip _ _ _ _ ih => exact ih
  | @enter i s c _ hi hc hl ih =>
    obtain ⟨col, hinv, hex⟩ := ih
    obtain ⟨b0, hb0, l0, hl0, hpb1, hpl1⟩ := place_prevBoard true n i c s (by omega)
    refine ⟨store col i c, ?_, ?_⟩
    · rw [hpb1, hpl1]
      exact place_inv true n i c _ _ b0 l0 col hinv hi hc (by omega) hb0 hl0
    · rw [hpl1]
      exact place_exactRev n i c _ _ b0 l0 col hinv hex hi hc hn hb0 hl0
  | @back i s c s1 _ hi hc hl hret ih =>
    obtain ⟨col, hinv, hex⟩ := ih
    obtain ⟨h1, h2⟩ := prev_after_call true n i c s _ hret
    have h1' : prevBoard s1 i = prevBoard s i := h1
    have h2' : prevIllegal s1 i = prevIllegal s i := h2
    refine ⟨col, ?_, ?_⟩
    · rw [h1', h2']; exact hinv
    · rw [h2']; exact hex

/-- C18 (amended). With the revised rule on and the two queens of a pair (prev, cur) in
columns p and q below 32, the collinearity walk sets, for k = 1, 2, ..., exactly the bit at
the would-be collinear column q + k (q - p) of the row cur + k (cur - prev), and it stops as
soon as that column leaves the range [0, 64) of the row word or the row index exceeds n - 1.
Consequently, for 1 ≤ n ≤ 32, right after a commit at depth i a bit of a mask `illegal[i][r]`
with i < r < n is set if and only if it is a column or diagonal attack at a column index
below n or such a walk position at a column index below 64; and for 1 ≤ n ≤ 64 no illegal
mask reached by the search has a bit set at a column index ≥ 64. -/
theorem C18_walk_stops_at_word_range (n : Nat) (_h1 : 1 ≤ n) (_h64 : n ≤ 64) :
    (∀ (board ill : Nat → Nat) (cur prev p q : Nat), prev < cur → p < 32 → q < 32 →
        board prev = 2 ^ p → board cur = 2 ^ q → ∀ r c,
          ((collinear_step board cur n (2 ^ q) prev ill r).testBit c = true
            ↔ (ill r).testBit c = true
              ∨ ∃ k, 1 ≤ k ∧ r = cur + k * (cur - prev) ∧ r < n
                  ∧ (c : Int) = (q : Int) + (k : Int) * ((q : Int) - (p : Int)) ∧ c < 64))
      ∧ (n ≤ 32 → ∀ i t, Committed true n i t →
          ∃ col : Nat → Nat, (∀ j, j ≤ i → col j < n ∧ t.board i j = 2 ^ col j)
            ∧ ∀ r, i < r → r < n → ∀ c,
                ((t.illegal i r).testBit c = true
                  ↔ (c < n ∧ ∃ j, j ≤ i
                        ∧ (col j = c
                          ∨ |(r : Int) - (j : Int)| = |(c : Int) - (col j : Int)|))
                    ∨ (c < 64 ∧ ∃ j k m, j < k ∧ k ≤ i ∧ 1 ≤ m ∧ r = k + m * (k - j)
                        ∧ (c : Int)
                            = (col k : Int) + (m : Int) * ((col k : Int) - (col j : Int)))))
      ∧ ∀ i s c, Reach true n i s c →
          ∀ d r k, 64 ≤ k → (s.illegal d r).testBit k = false := by
  refine ⟨fun board ill cur prev p q hprev hp hq hbp hbq r c =>
      collinear_step_exact board ill cur n prev p q hprev hp hq hbp hbq r c, ?_, ?_⟩
  · intro h32 i t hcom
    obtain ⟨s, c0, hreach, hi, hc0, hl, ht⟩ := hcom
    obtain ⟨col, hinv, hex⟩ :=
      reach_exactRev n h32 (i + 1) t 0 (ht ▸ Reach.enter hreach hi hc0 hl)
    have hb : prevBoard t (i + 1) = t.board i := by funext r; simp [prevBoard]
    have hl' : prevIllegal t (i + 1) = t.illegal i := by funext r; simp [prevIllegal]
    rw [hb, hl'] at hinv
    rw [hl'] at hex
    refine ⟨col, fun j hj => ⟨hinv.col_lt j (by omega), hinv.board_eq j (by omega)⟩, ?_⟩
    intro r hr hrn c
    rw [hex r (by omega) hrn c]
    constructor
    · rintro (⟨hc, j, hj, hatt⟩ | ⟨hc, j, k, m, hjk, hk, hm, hrow, hcol⟩)
      · exact Or.inl ⟨hc, j, by omega, (attacks_iff_abs (col j) j r c (by omega)).mp hatt⟩
      · exact Or.inr ⟨hc, j, k, m, hjk, by omega, hm, hrow, hcol⟩
    · rintro (⟨hc, j, hj, hatt⟩ | ⟨hc, j, k, m, hjk, hk, hm, hrow, hcol⟩)
      · exact Or.inl ⟨hc, j, by omega, (attacks_iff_abs (col j) j r c (by omega)).mpr hatt⟩
      · exact Or.inr ⟨hc, j, k, m, hjk, by omega, hm, hrow, hcol⟩
  · intro i s c hreach d r k hk
    have hb := reach_bounded true n i s c hreach d r
    apply Nat.testBit_lt_two_pow
    exact Nat.lt_of_lt_of_le hb (Nat.pow_le_pow_right (by decide) hk)

/-- Instance of C18 (amended) for n = 4, right after the queens of rows 0 and 1 are committed
at columns 0 and 2: the masks of rows 2 and 3 are exact, the walk for the pair of rows 0 and
1 accounting for bit 4 of `illegal[1][2]`. -/
theorem C18_witness :
    ∃ col : Nat → Nat,
      (∀ j, j ≤ 1 → col j < 4
        ∧ (descent true 4 ([0] ++ [2]) 0 zeroState).board 1 j = 2 ^ col j)
      ∧ ∀ r, 1 < r → r < 4 → ∀ c,
          (((descent true 4 ([0] ++ [2]) 0 zeroState).illegal 1 r).testBit c = true
            ↔ (c < 4 ∧ ∃ j, j ≤ 1
                  ∧ (col j = c ∨ |(r : Int) - (j : Int)| = |(c : Int) - (col j : Int)|))
              ∨ (c < 64 ∧ ∃ j k m, j < k ∧ k ≤ 1 ∧ 1 ≤ m ∧ r = k + m * (k - j)
                  ∧ (c : Int)
                      = (col k : Int) + (m : Int) * ((col k : Int) - (col j : Int)))) :=
  (C18_walk_stops_at_word_range 4 (by decide) (by decide)).2.1 (by decide) 1 _
    (committed_first_descent true 4 [0] 2 0 zeroState Reach.start eval_descent_4.1)

/-! ## Lexicographic minimality of the classical answer -/

theorem lexLe_of_lt (i n : Nat) (a b : Nat → Nat) (hi : i < n) (h : a i < b i) :
    LexLe i n a b :=
  Or.inr ⟨i, Nat.le_refl i, hi, fun r h1 h2 => by omega, h⟩

theorem lexLe_of_eq (i n : Nat) (a b : Nat → Nat) (h : a i = b i) (hrest : LexLe (i + 1) n a b) :
    LexLe i n a b := by
  rcases hrest with hall | ⟨k, hk1, hk2, hk3, hk4⟩
  · left
    intro r hr hrn
    by_cases hri : r = i
    · rw [hri]; exact h
    · exact hall r (by omega) hrn
  · right
    refine ⟨k, by omega, hk2, fun r hr hrk => ?_, hk4⟩
    by_cases hri : r = i
    · rw [hri]; exact h
    · exact hk3 r (by omega) hrk

/-- The loop over the columns of row `i` under classical rules: when it reports success, the
placement it returns is the lexicographically smallest classical solution that extends the
queens of rows `0..i-1`. -/
theorem try_columns_lex (n i f : Nat) (hn : n ≤ 64) (hi : i < n) (hf : i + 1 + f = n)
    (pb pl col : Nat → Nat) (hinv : Inv false n i pb pl col) (hgood : Good false n col i)
    (ih : ∀ s col1, Inv false n (i + 1) (prevBoard s (i + 1)) (prevIllegal s (i + 1)) col1 →
      Good false n col1 (i + 1) → ∀ t,
      queens_recurse_fuel false n f (i + 1) s = some (true, t) →
      ∃ col', Inv false n n (prevBoard t n) (prevIllegal t n) col' ∧ Good false n col' n
        ∧ (∀ r, r < i + 1 → col' r = col1 r)
        ∧ ∀ sol, Sol n sol → (∀ r, r < i + 1 → sol r = col1 r) → LexLe (i + 1) n col' sol) :
    ∀ (count c : Nat) (s : State), c + count = n →
      prevBoard s i = pb → prevIllegal s i = pl →
      (∀ sol, Sol n sol → (∀ r, r < i → sol r = col r) → c ≤ sol i) →
      ∀ t, try_columns false n i (queens_recurse_fuel false n f (i + 1)) count c s
          = some (true, t) →
        ∃ col', Inv false n n (prevBoard t n) (prevIllegal t n) col' ∧ Good false n col' n
          ∧ (∀ r, r < i → col' r = col r)
          ∧ ∀ sol, Sol n sol → (∀ r, r < i → sol r = col r) → LexLe i n col' sol := by
  intro count
  induction count with
  | zero =>
    intro c s _ _ _ _ t h
    rw [try_columns_zero] at h
    cases h
  | succ k ihc =>
    intro c s hcnt hpb hpl hmin t h
    have hc : c < n := by omega
    have hc64 : c < 64 := by omega
    by_cases hl : i = 0 ∨ is_legal (s.illegal (i - 1)) i n (shl64 1 c) = true
    · have hbit : (pl i).testBit c = false := by
        rw [← hpl]; exact (legal_iff_prev s i n c hc64).mp hl
      obtain ⟨b0, hb0, l0, hl0, hpb1, hpl1⟩ := place_prevBoard false n i c s hc64
      have hinv1 : Inv false n (i + 1) (prevBoard (place false n i c s) (i + 1))
          (prevIllegal (place false n i c s) (i + 1)) (store col i c) := by
        rw [hpb1, hpl1]
        exact place_inv false n i c pb pl b0 l0 col hinv hi hc hn
          (fun r hr => by rw [hb0 r hr, hpb]) (fun r hr => by rw [hl0 r hr, hpl])
      have hgood1 := good_extend false n i c pb pl col hinv hgood hi hc hbit
      cases hr : queens_recurse_fuel false n f (i + 1) (place false n i c s) with
      | none => rw [try_columns_take_none _ _ _ _ _ _ _ hl hr] at h; cases h
      | some res =>
        obtain ⟨b1, s1⟩ := res
        cases b1 with
        | true =>
          rw [try_columns_take_true _ _ _ _ _ _ _ _ hl hr] at h
          cases h
          obtain ⟨col', h1, h2, h3, h4⟩ := ih _ _ hinv1 hgood1 _ hr
          have hci : col' i = c := by rw [h3 i (by omega), store_apply, if_pos rfl]
          refine ⟨col', h1, h2, fun r hr' => ?_, fun sol hsol hext => ?_⟩
          · rw [h3 r (by omega), store_apply, if_neg (by omega)]
          · have hge := hmin sol hsol hext
            by_cases heq : sol i = c
            · apply lexLe_of_eq i n col' sol (by rw [hci, heq])
              apply h4 sol hsol
              intro r hr'
              rw [store_apply]
              split
              · rename_i hri; rw [hri, heq]
              · exact hext r (by omega)
            · exact lexLe_of_lt i n col' sol hi (by omega)
        | false =>
          rw [try_columns_take_false _ _ _ _ _ _ _ _ hl hr] at h
          have hfr := queens_recurse_fuel_frame false n f (i + 1) _ _ hr
          have hpb2 : prevBoard s1 i = pb := by
            rw [← hpb]
            funext r
            unfold prevBoard
            by_cases hi0 : i = 0
            · simp [hi0]
            · simp only [hi0, if_false]
              rw [(hfr (i - 1) (by omega)).1, place_board_ne _ _ _ _ _ _ (by omega)]
          have hpl2 : prevIllegal s1 i = pl := by
            rw [← hpl]
            funext r
            unfold prevIllegal
            by_cases hi0 : i = 0
            · simp [hi0]
            · simp only [hi0, if_false]
              rw [(hfr (i - 1) (by omega)).2, place_illegal_ne _ _ _ _ _ _ (by omega)]
          have hpost := queens_recurse_fuel_spec false n hn f (i + 1) _ (store col i c)
            (by omega) hinv1 hgood1 false s1 hr
          apply ihc (c + 1) s1 (by omega) hpb2 hpl2 _ t h
          intro sol hsol hext
          have hge := hmin sol hsol hext
          have hne : sol i ≠ c := by
            intro heq
            apply hpost.2 rfl rfl sol hsol
            intro r hr'
            rw [store_apply]
            split
            · rename_i hri; rw [hri, heq]
            · exact hext r (by omega)
          omega
    · rw [try_columns_skip _ _ _ _ _ _ _ hl] at h
      apply ihc (c + 1) s (by omega) hpb hpl _ t h
      intro sol hsol hext
      have hge := hmin sol hsol hext
      have hne : sol i ≠ c := by
        intro heq
        have hbit : (pl i).testBit c = true := by
          rw [← hpl]
          have := (legal_iff_prev s i n c hc64).not.mp hl
          simpa using this
        obtain ⟨j, hj, hatt⟩ := hinv.exact rfl i (Nat.le_refl _) hi c hc hbit
        apply hsol.2 j i hj hi
        rw [hext j hj, heq]
        exact hatt
      omega

theorem queens_recurse_fuel_lex (n : Nat) (hn : n ≤ 64) :
    ∀ (fuel i : Nat) (s : State) (col : Nat → Nat), i + fuel = n →
      Inv false n i (prevBoard s i) (prevIllegal s i) col → Good false n col i →
      ∀ t, queens_recurse_fuel false n fuel i s = some (true, t) →
        ∃ col', Inv false n n (prevBoard t n) (prevIllegal t n) col' ∧ Good false n col' n
          ∧ (∀ r, r < i → col' r = col r)
          ∧ ∀ sol, Sol n sol → (∀ r, r < i → sol r = col r) → LexLe i n col' sol := by
  intro fuel
  induction fuel with
  | zero =>
    intro i s col hfuel hinv hgood t h
    have hin : i = n := by omega
    subst hin
    rw [qrf_done] at h
    cases h
    exact ⟨col, hinv, hgood, fun _ _ => rfl, fun sol _ hext =>
      Or.inl (fun r hr hrn => by omega)⟩
  | succ f ih =>
    intro i s col hfuel hinv hgood t h
    have hin : i ≠ n := by omega
    rw [qrf_succ _ _ _ _ _ hin] at h
    exact try_columns_lex n i f hn (by omega) (by omega) _ _ col hinv hgood
      (fun s' col1 hinv1 hgood1 t' hr' => ih (i + 1) s' col1 (by omega) hinv1 hgood1 t' hr')
      n 0 s (by omega) rfl rfl (fun _ _ _ => Nat.zero_le _) t h

/-- C20. With the revised rule off and 1 ≤ n ≤ 64: when the search succeeds, the returned
column sequence is the lexicographically smallest among all placements of n queens that
satisfy the classical constraints. -/
theorem C20_classical_answer_lex_smallest (n : Nat) (h1 : 1 ≤ n) (h64 : n ≤ 64) (s : State)
    (h : queens_recurse false n 0 zeroState = some (true, s)) :
    ∃ col, OneQueenPerRow n (s.board (n - 1)) col ∧ NoSharedColumnOrDiagonal n col
      ∧ ∀ sol, (∀ r, r < n → sol r < n) → NoSharedColumnOrDiagonal n sol →
          LexLe 0 n col sol := by
  have hinv0 : Inv false n 0 (prevBoard zeroState 0) (prevIllegal zeroState 0) (fun _ => 0) :=
    inv_zero false n _
  have hgood0 : Good false n (fun _ => 0) 0 :=
    ⟨fun a b _ hb => absurd hb (Nat.not_lt_zero b), fun hrev => Bool.noConfusion hrev⟩
  obtain ⟨col, hinv, hgood, _, hlex⟩ := queens_recurse_fuel_lex n h64 (n - 0) 0 zeroState
    (fun _ => 0) (by omega) hinv0 hgood0 s h
  refine ⟨col, ?_, (safe_iff_noShared n col).mp hgood.1, fun sol hlt hsafe => ?_⟩
  · apply oneQueen_of_eq
    intro r hr
    refine ⟨hinv.col_lt r hr, ?_⟩
    have := hinv.board_eq r hr
    unfold prevBoard at this
    rw [if_neg (by omega)] at this
    exact this
  · exact hlex sol ⟨hlt, (safe_iff_noShared n sol).mpr hsafe⟩
      (fun r hr => absurd hr (Nat.not_lt_zero r))

/-- Instance of C20 at n = 4. -/
theorem C20_witness :
    ∃ s, queens_recurse false 4 0 zeroState = some (true, s)
      ∧ ∃ col, OneQueenPerRow 4 (s.board (4 - 1)) col ∧ NoSharedColumnOrDiagonal 4 col
        ∧ ∀ sol, (∀ r, r < 4 → sol r < 4) → NoSharedColumnOrDiagonal 4 sol →
            LexLe 0 4 col sol := by
  obtain ⟨s, hs, _⟩ := of_observe _ _ _ _ (eval_success_4 false)
  exact ⟨s, hs, C20_classical_answer_lex_smallest 4 (by decide) (by decide) s hs⟩

/-! ## Range of subscripts and shifts -/

theorem ffsScan_le (x : Nat) : ∀ (fuel k : Nat), ffsScan x fuel k ≤ k + fuel := by
  intro fuel
  induction fuel with
  | zero => intro k; simp [ffsScan]
  | succ f ih =>
    intro k
    unfold ffsScan
    split
    · omega
    · have := ih (k + 1)
      omega

theorem findfirstset_le (x : Nat) : findfirstset x ≤ 32 := by
  unfold findfirstset builtin_ffs
  have := ffsScan_le (x % 2 ^ 32) 32 0
  omega

theorem col_diff_bounds (board : Nat → Nat) (i_prev i_cur : Nat) :
    -32 ≤ col_diff board i_prev i_cur ∧ col_diff board i_prev i_cur ≤ 32 := by
  unfold col_diff
  have h1 := findfirstset_le (board i_prev)
  have h2 := findfirstset_le (board i_cur)
  omega

theorem collinear_walk_checks_ok (n rd : Nat) (cd : Int) (h1 : -32 ≤ cd) (h2 : cd ≤ 32) :
    ∀ (fuel i_rem pos : Nat) (chk : Check),
      chk ∈ collinear_walk_checks n rd cd fuel i_rem pos → chk.ok n := by
  intro fuel
  induction fuel with
  | zero => intro i_rem pos chk h; simp [collinear_walk_checks] at h
  | succ f ih =>
    intro i_rem pos chk h
    unfold collinear_walk_checks at h
    split at h
    · rename_i hcond
      simp only [List.mem_cons] at h
      rcases h with h | h | h
      · subst h
        show (0 : Int) ≤ (if cd > 0 then cd else -cd) ∧ (if cd > 0 then cd else -cd) ≤ 63
        split <;> omega
      · subst h
        exact hcond.1
      · exact ih _ _ chk h
    · simp at h

theorem set_illegal_checks_ok (revised : Bool) (board : Nat → Nat) (i_cur n bits new_pos : Nat)
    (hi : i_cur < n) (hn : n ≤ 64) (chk : Check)
    (h : chk ∈ set_illegal_checks revised board i_cur n bits new_pos) : chk.ok n := by
  unfold set_illegal_checks at h
  simp only [List.mem_append, List.mem_flatMap, List.mem_range'_1, List.mem_cons,
    List.mem_singleton, List.not_mem_nil, or_false, List.mem_map] at h
  rcases h with ((⟨step, ⟨hs1, hs2⟩, h⟩ | ⟨step, ⟨hs1, hs2⟩, h⟩) | ⟨step, ⟨hs1, hs2⟩, h⟩) | h
  · have hle : cmin (n - i_cur - 1) new_pos ≤ n - i_cur - 1 := by unfold cmin; split <;> omega
    rcases h with h | h
    · subst h; show i_cur + step < n; omega
    · subst h; show (0 : Int) ≤ (step : Int) ∧ (step : Int) ≤ 63; omega
  · have hle : cmin (n - i_cur - 1) (n - new_pos - 1) ≤ n - i_cur - 1 := by
      unfold cmin; split <;> omega
    rcases h with h | h
    · subst h; show i_cur + step < n; omega
    · subst h; show (0 : Int) ≤ (step : Int) ∧ (step : Int) ≤ 63; omega
  · subst h; show i_cur + step < n; omega
  · cases revised with
    | false => simp at h
    | true =>
      simp only [if_true, List.mem_flatMap, List.mem_range, List.mem_append, List.mem_cons,
        List.mem_singleton, List.not_mem_nil, or_false] at h
      obtain ⟨i_prev, hp, h⟩ := h
      rcases h with (h | h) | h
      · subst h; show i_prev < n; omega
      · subst h; exact hi
      · have hb := col_diff_bounds board i_prev i_cur
        exact collinear_walk_checks_ok n _ _ hb.1 hb.2 _ _ _ chk h

theorem copy_checks_ok (n : Nat) (chk : Check) (h : chk ∈ copy_checks n) : chk.ok n := by
  unfold copy_checks at h
  simp only [List.mem_flatMap, List.mem_range, List.mem_cons, List.mem_singleton,
    List.not_mem_nil, or_false, or_self] at h
  obtain ⟨k, hk, h⟩ := h
  subst h
  exact hk

theorem zero_checks_ok (n : Nat) (chk : Check) (h : chk ∈ zero_checks n) : chk.ok n := by
  unfold zero_checks at h
  simp only [List.mem_map, List.mem_range] at h
  obtain ⟨k, hk, h⟩ := h
  subst h
  exact hk

/-- Every operation of a loop iteration at a depth `i < n` with a column `c < n` is in
range, whatever the arrays. -/
theorem iteration_checks_ok (revised : Bool) (n i c : Nat) (s : State) (hn : n ≤ 64)
    (hi : i < n) (hc : c < n) (chk : Check) (h : chk ∈ iteration_checks revised n i c s) :
    chk.ok n := by
  unfold iteration_checks at h
  simp only [List.mem_append, List.mem_singleton] at h
  rcases h with (h | h) | h
  · subst h; show (0 : Int) ≤ (c : Int) ∧ (c : Int) ≤ 63; omega
  · split at h
    · simp at h
    · simp only [List.mem_cons, List.mem_singleton, List.not_mem_nil, or_false] at h
      rcases h with h | h
      · subst h; show i - 1 < n; omega
      · subst h; exact hi
  · split at h
    · simp only [List.mem_append, List.mem_cons, List.mem_singleton, List.not_mem_nil,
        or_false] at h
      rcases h with ((h | h) | h) | h
      · split at h
        · simp only [List.mem_append, List.mem_cons, List.mem_singleton, List.not_mem_nil,
            or_false] at h
          rcases h with (((h | h) | h) | (h | h)) | h
          · subst h; exact hi
          · subst h; show i - 1 < n; omega
          · exact copy_checks_ok n chk h
          · subst h; exact hi
          · subst h; show i - 1 < n; omega
          · exact copy_checks_ok n chk h
        · simp only [List.mem_append, List.mem_cons, List.mem_singleton, List.not_mem_nil,
            or_false] at h
          rcases h with ((h | h) | h) | h
          · subst h; exact hi
          · exact zero_checks_ok n chk h
          · subst h; exact hi
          · exact zero_checks_ok n chk h
      · rcases h with h | h <;> subst h <;> exact hi
      · rcases h with h | h <;> subst h <;> exact hi
      · exact set_illegal_checks_ok revised _ i n _ c hi hn chk h
    · simp at h

/-- C19. Under the precondition 1 ≤ n ≤ 64, in every state reached by the search from zeroed
arrays, every array access of a loop iteration of `queens_recurse` (with `is_legal`, `copy`,
`zero` and `set_illegal`) uses a depth index and a row index in [0, n), and every shift (by
`new_pos`, by `step`, by `col_diff` or `-col_diff`) has an amount in [0, 63]. -/
theorem C19_indices_and_shifts_in_range (revised : Bool) (n : Nat) (_h1 : 1 ≤ n) (h64 : n ≤ 64)
    (i : Nat) (s : State) (c : Nat) (_hreach : Reach revised n i s c) (hi : i < n)
    (hc : c < n) :
    ∀ chk, chk ∈ iteration_checks revised n i c s → chk.ok n :=
  fun chk h => iteration_checks_ok revised n i c s h64 hi hc chk h

/-- Instance of C19 for the second commit of the run for n = 4 with the revised rule on: the
shift `1 << 2` and the subscript of `illegal[0]` are in range. -/
theorem C19_witness : Check.ok 4 (Check.shift 2) ∧ Check.ok 4 (Check.depth (1 - 1)) :=
  ⟨C19_indices_and_shifts_in_range true 4 (by decide) (by decide) 1 (place true 4 0 0 zeroState)
      2
      (Reach.skip (Reach.skip (Reach.enter Reach.start (by decide) (by decide) (Or.inl rfl))
        (by decide) (by decide) (by decide!)) (by decide) (by decide) (by decide!))
      (by decide) (by decide) (Check.shift 2)
      (List.mem_append_left _ (List.mem_append_left _ (List.mem_singleton.mpr rfl))),
    C19_indices_and_shifts_in_range true 4 (by decide) (by decide) 1 (place true 4 0 0 zeroState)
      2
      (Reach.skip (Reach.skip (Reach.enter Reach.start (by decide) (by decide) (Or.inl rfl))
        (by decide) (by decide) (by decide!)) (by decide) (by decide) (by decide!))
      (by decide) (by decide) (Check.depth (1 - 1))
      (List.mem_append_left _ (List.mem_append_right _ (List.mem_cons_self _ _)))⟩

end Queens
